import Mathlib

/-!
Verification of the claude-pilot repository: a shallow embedding of the
installer, migration, rule-assembly and hook-script logic, with theorems
settling the specification claims C1 to C10.

Python dictionaries are modelled as association lists (`List (key × value)`)
whose semantics is first-match `List.lookup`; filesystem directories are
modelled as association lists from file names to contents; subprocess and
PATH lookups are modelled as explicit environment records.  String ordering
is modelled by code-point lexicographic comparison (`lexLe`), matching
Python's `sorted` on `str`.
-/

/-! ## Shared utilities: code-point lexicographic order on strings -/

/-- Code-point lexicographic comparison of character lists, as used by
Python's `sorted` on strings. -/
def lexLe : List Char → List Char → Bool
  | [], _ => true
  | _ :: _, [] => false
  | a :: as, b :: bs =>
    if a.toNat < b.toNat then true
    else if b.toNat < a.toNat then false
    else lexLe as bs

/-- Lexicographic `≤` on strings via their character data. -/
def strLe (a b : String) : Bool := lexLe a.data b.data

/-- Substring containment (Python's `in` on `str`), via character lists. -/
def strContainsSub (s pat : String) : Bool := decide (pat.data <:+: s.data)

/-! ## C2 — installer config load/save key filtering

Modelled from the spec: `installer/config.py` is not present under `src/`
(only its unit tests are).  Per the spec, `~/.pilot/config.json` is "a flat
mapping restricted to a fixed allow-list of keys (`VALID_CONFIG_KEYS`); both
load and save silently drop any key outside that set".  The allow-list's
exact membership is not recorded in the sources, so the functions are
parametrised by it; the tests pin `"enable_python"` as a member and
`"enable_agent_browser"` and `"unknown_key"` as non-members. -/

/-- A config mapping: association list from string keys to values. -/
abbrev ConfigMap (α : Type) := List (String × α)

/-- Modelled from the spec: `save_config` writes the given mapping to
`~/.pilot/config.json`, silently dropping any key outside the allow-list.
The returned list is the on-disk mapping. -/
def save_config (valid : List String) (config : ConfigMap α) : ConfigMap α :=
  config.filter (fun kv => valid.contains kv.1)

/-- Modelled from the spec: `load_config` reads the on-disk mapping and
silently drops any key outside the allow-list. -/
def load_config (valid : List String) (disk : ConfigMap α) : ConfigMap α :=
  disk.filter (fun kv => valid.contains kv.1)

/-! ## C7 — MCP config merge (`scripts/lib/files.py`, `merge_mcp_config`) -/

/-- Python's `{**a, **b}` on dicts modelled on association lists: the keys of
`a` come first (with `b`'s value winning on a shared key), followed by the
keys only in `b`, preserving order. -/
def pyDictMerge (a b : List (String × α)) : List (String × α) :=
  a.map (fun kv => (kv.1, (b.lookup kv.1).getD kv.2)) ++
    b.filter (fun kv => (a.lookup kv.1).isNone)

/-- The two top-level server keys an MCP config may carry.  Only these two
fields matter to `merge_mcp_config`; remaining top-level keys also merge via
`{**new_config, **existing_config}` and are not modelled. -/
structure McpConfig (α : Type) where
  mcpServers : Option (List (String × α))
  servers : Option (List (String × α))

/-- The `server_key` selection of `merge_mcp_config`: `"mcpServers"` in the
existing config, else `"servers"` in the existing config, else the same two
checks on the new config. -/
def pick_server_key (existing newCfg : McpConfig α) : Option String :=
  if existing.mcpServers.isSome then some "mcpServers"
  else if existing.servers.isSome then some "servers"
  else if newCfg.mcpServers.isSome then some "mcpServers"
  else if newCfg.servers.isSome then some "servers"
  else none

/-- `config.get(server_key, {})`. -/
def getServers (c : McpConfig α) (key : String) : List (String × α) :=
  if key = "mcpServers" then c.mcpServers.getD [] else c.servers.getD []

/-- Write the merged server mapping back under the selected key. -/
def setServers (c : McpConfig α) (key : String) (v : List (String × α)) : McpConfig α :=
  if key = "mcpServers" then { c with mcpServers := some v } else { c with servers := some v }

/-- The merge branch of `merge_mcp_config` (the destination file exists and
both JSON files parsed): `merged_servers = {**new_servers, **existing_servers}`,
`merged_config = {**new_config, **existing_config}` and the server key is
overwritten with the merged server mapping. -/
def merge_mcp_config (existing newCfg : McpConfig α) : McpConfig α :=
  match pick_server_key existing newCfg with
  | some key =>
    let existing_servers := getServers existing key
    let new_servers := getServers newCfg key
    let merged_servers := pyDictMerge new_servers existing_servers
    let merged : McpConfig α :=
      { mcpServers := (existing.mcpServers).or newCfg.mcpServers
        servers := (existing.servers).or newCfg.servers }
    setServers merged key merged_servers
  | none =>
    { mcpServers := (existing.mcpServers).or newCfg.mcpServers
      servers := (existing.servers).or newCfg.servers }

/-! ## C4 — legacy layout migration (`scripts/lib/migration.py`) -/

/-- The deprecated subdirectory names flattened by the migration. -/
def OLD_SUBDIRS : List String := ["core", "workflow", "extended"]

/-- One of the two rule source directories (`standard/` or `custom/`):
the markdown files at the parent level and the files of each existing
subdirectory, both as name-to-content association lists.  A subdirectory
exists iff its name is a key of `subdirs` (possibly with an empty file
list). -/
structure SourceDir where
  parentFiles : List (String × String)
  subdirs : List (String × List (String × String))

/-- The rules tree: `none` for a source directory means the directory does
not exist.  `configYaml` records whether `rules/config.yaml` exists. -/
structure RulesState where
  rulesExists : Bool
  standard : Option SourceDir
  custom : Option SourceDir
  configYaml : Bool

/-- Does `source_dir / old_subdir` exist? -/
def subdirExists (d : Option SourceDir) (name : String) : Bool :=
  match d with
  | none => false
  | some sd => (sd.subdirs.lookup name).isSome

/-- The inner loop of `needs_migration` for one source directory. -/
def sourceNeedsMigration (d : Option SourceDir) : Bool :=
  OLD_SUBDIRS.any (fun n => subdirExists d n)

/-- `needs_migration`: old subdirectories found in `standard/` or `custom/`
under an existing rules directory. -/
def needs_migration (s : RulesState) : Bool :=
  s.rulesExists && (sourceNeedsMigration s.standard || sourceNeedsMigration s.custom)

/-- The per-subdirectory move loop: each `.md` file is moved to the parent
unless a file of the same name already exists there, in which case it is
skipped with a warning (the parent-level file wins). -/
def moveFiles (parent : List (String × String)) (files : List (String × String)) :
    List (String × String) :=
  files.foldl (fun p f => if (p.lookup f.1).isSome then p else p ++ [f]) parent

/-- Process one legacy subdirectory of a source directory: move its `.md`
files up, then remove the subdirectory (`shutil.rmtree`) regardless of any
remaining content. -/
def flattenSubdir (d : SourceDir) (name : String) : SourceDir :=
  match d.subdirs.lookup name with
  | none => d
  | some files =>
    { parentFiles := moveFiles d.parentFiles files
      subdirs := d.subdirs.filter (fun p => !(p.1 == name)) }

/-- Flatten all three legacy subdirectories of one source directory, in the
fixed `OLD_SUBDIRS` order. -/
def flattenSource (d : SourceDir) : SourceDir :=
  OLD_SUBDIRS.foldl flattenSubdir d

/-- `run_migration` with `non_interactive` (the prompt auto-confirms): if no
migration is needed the state is untouched; otherwise both source
directories are flattened and the legacy `config.yaml` is deleted.  The
timestamped backup copy is not modelled. -/
def run_migration (s : RulesState) : RulesState :=
  if needs_migration s then
    { s with
      standard := s.standard.map flattenSource
      custom := s.custom.map flattenSource
      configYaml := false }
  else s

/-! ## C3 / C8 — installer steps (`installer/steps/bootstrap.py`,
`installer/steps/dependencies.py`) -/

/-- The install context and filesystem state visible to the Bootstrap step:
the `.claude` directory, the backup, the created subdirectories and the two
`ctx.config` entries it writes. -/
structure BootstrapState where
  claudeDirExists : Bool
  localMode : Bool
  backupSucceeds : Bool
  cfgIsUpgrade : Option Bool
  cfgBackupPath : Option String
  subdirsCreated : Bool

/-- `BootstrapStep.check`: "Always returns False - bootstrap always runs." -/
def BootstrapStep_check (_ctx : BootstrapState) : Bool := false

/-- `BootstrapStep.run`: detects an upgrade, records `is_upgrade`, creates a
timestamped backup when upgrading outside local mode (a failure is only a
warning), then creates `.claude` and its subdirectories. -/
def BootstrapStep_run (s : BootstrapState) : BootstrapState :=
  let afterDetect :=
    if s.claudeDirExists then
      if ¬s.localMode ∧ s.backupSucceeds then
        { s with cfgIsUpgrade := some true, cfgBackupPath := some "backup" }
      else
        { s with cfgIsUpgrade := some true }
    else
      { s with cfgIsUpgrade := some false }
  { afterDetect with claudeDirExists := true, subdirsCreated := true }

/-- `MAX_RETRIES` from `dependencies.py`. -/
def MAX_RETRIES : Nat := 3

/-- `RETRY_DELAY` (seconds) from `dependencies.py`. -/
def RETRY_DELAY : Nat := 2

/-- Observable outcome of `_run_bash_with_retry`: whether it returned True,
how many subprocess attempts it made, and how many fixed-delay sleeps it
performed between attempts. -/
structure RetryOutcome where
  success : Bool
  attemptsMade : Nat
  sleeps : Nat
deriving DecidableEq

/-- The retry loop of `_run_bash_with_retry`: `results i` is whether the
`i`-th subprocess attempt of this command succeeds.  On failure the loop
sleeps `RETRY_DELAY` seconds unless it was the final attempt. -/
def run_bash_retry_go (results : Nat → Bool) (attempt made slept : Nat) :
    Nat → RetryOutcome
  | 0 => ⟨false, made, slept⟩
  | Nat.succ fuel =>
    if results attempt then ⟨true, made + 1, slept⟩
    else
      if attempt < MAX_RETRIES - 1 then
        run_bash_retry_go results (attempt + 1) (made + 1) (slept + 1) fuel
      else
        run_bash_retry_go results (attempt + 1) (made + 1) slept fuel

/-- `_run_bash_with_retry`: run a bash command with up to `MAX_RETRIES`
attempts, sleeping between consecutive attempts. -/
def run_bash_with_retry (results : Nat → Bool) : RetryOutcome :=
  run_bash_retry_go results 0 0 0 MAX_RETRIES

/-- The environment the Dependencies step runs in: which commands are on
PATH (`command_exists`), whether `~/.nvm` exists, the per-attempt outcome of
each shell install command, the outcome of each `uv tool install`, and the
`ctx.install_python` flag. -/
structure DepsWorld where
  onPath : String → Bool
  nvmDirExists : Bool
  shellCmd : String → Nat → Bool
  uvToolInstall : String → Bool
  installPython : Bool

/-- The nvm bootstrap command of `install_nodejs`. -/
def NVM_CURL_CMD : String :=
  "curl -o- https://raw.githubusercontent.com/nvm-sh/nvm/v0.40.0/install.sh | bash"

/-- The node install command of `install_nodejs`. -/
def NVM_INSTALL_CMD : String := "source ~/.nvm/nvm.sh && nvm install 22 && nvm use 22"

/-- `install_nodejs`: PATH check first; absent node bootstraps nvm (when
`~/.nvm` is missing) and then installs node, each via a retried shell
command. -/
def install_nodejs (w : DepsWorld) : Bool :=
  if w.onPath "node" then true
  else
    if ¬w.nvmDirExists ∧ ¬(run_bash_with_retry (w.shellCmd NVM_CURL_CMD)).success then false
    else (run_bash_with_retry (w.shellCmd NVM_INSTALL_CMD)).success

/-- `install_uv`: PATH check first, then one retried shell install. -/
def install_uv (w : DepsWorld) : Bool :=
  if w.onPath "uv" then true
  else (run_bash_with_retry (w.shellCmd "curl -LsSf https://astral.sh/uv/install.sh | sh")).success

/-- The Python tools installed by `install_python_tools`. -/
def PY_TOOLS : List String := ["ruff", "mypy", "basedpyright"]

/-- The loop of `install_python_tools`: each absent tool is installed via a
single `uv tool install` (no shell, no retry); the first
`CalledProcessError` aborts the remaining tools of this group.  The second
component records which tools' install commands were actually invoked. -/
def install_python_tools_go (w : DepsWorld) : List String → List String →
    Bool × List String
  | [], attempted => (true, attempted)
  | t :: rest, attempted =>
    if w.onPath t then install_python_tools_go w rest attempted
    else
      if w.uvToolInstall t then install_python_tools_go w rest (attempted ++ [t])
      else (false, attempted ++ [t])

/-- `install_python_tools` over the fixed tool list. -/
def install_python_tools (w : DepsWorld) : Bool × List String :=
  install_python_tools_go w PY_TOOLS []

/-- `install_claude_code`: PATH check first, then one retried shell install. -/
def install_claude_code (w : DepsWorld) : Bool :=
  if w.onPath "claude" then true
  else (run_bash_with_retry (w.shellCmd "curl -fsSL https://claude.ai/install.sh | bash")).success

/-- `install_qlty`: PATH check first, then one retried shell install. -/
def install_qlty (w : DepsWorld) : Bool :=
  if w.onPath "qlty" then true
  else (run_bash_with_retry (w.shellCmd "curl https://qlty.sh | bash")).success

/-- `install_dotenvx`: PATH check first, then one retried shell install. -/
def install_dotenvx (w : DepsWorld) : Bool :=
  if w.onPath "dotenvx" then true
  else (run_bash_with_retry (w.shellCmd "curl -sfS https://dotenvx.sh | sh")).success

/-- `DependenciesStep.check`: "Always returns False - dependencies should
always be checked." -/
def DependenciesStep_check (_w : DepsWorld) : Bool := false

/-- `DependenciesStep.run`: attempts every install unit in order, each
failure merely logged, and records the names of successfully installed units
in `ctx.config["installed_dependencies"]`. -/
def DependenciesStep_run (w : DepsWorld) : List String :=
  (if install_nodejs w then ["nodejs"] else []) ++
  (if w.installPython then
    (if install_uv w then ["uv"] else []) ++
    (if (install_python_tools w).1 then ["python_tools"] else [])
  else []) ++
  (if install_claude_code w then ["claude_code"] else []) ++
  (if install_qlty w then ["qlty"] else []) ++
  (if install_dotenvx w then ["dotenvx"] else [])

/-- A concrete Dependencies environment: nothing on PATH, every shell
command and every `uv tool install` fails, Python tooling enabled. -/
def depsWorldCounter : DepsWorld :=
  { onPath := fun _ => false
    nvmDirExists := false
    shellCmd := fun _ _ => false
    uvToolInstall := fun _ => false
    installPython := true }

/-! ## C5 — file-checker entry point (hook `file_checker.py`)

Modelled from the spec: `pilot/hooks/file_checker.py` itself is not present
under `src/` (only its tests are).  Per the spec, "a pure lookup by file
extension dispatches an edited file path to one of several per-language
checker functions, each returning a numeric status and a human-readable
reason string", and the hook "may write a JSON decision object
(`{"decision": "block", "reason": "..."}` or `{}`) to standard output". -/

/-- The per-language checkers reachable from the dispatch table pinned by
the tests (`.py`, `.ts`, `.go`). -/
inductive CheckerLang where
  | python
  | typescript
  | golang
deriving DecidableEq

/-- The extension dispatch table; an extension outside the table has no
registered checker. -/
def checker_for_extension (ext : String) : Option CheckerLang :=
  if ext = ".py" then some CheckerLang.python
  else if ext = ".ts" then some CheckerLang.typescript
  else if ext = ".go" then some CheckerLang.golang
  else none

/-- A JSON decision object written to standard output. -/
inductive HookOutput where
  | blockDecision (reason : String)
  | emptyDecision
deriving DecidableEq

/-- Serialisation of the decision object. -/
def render_decision : HookOutput → String
  | HookOutput.blockDecision r =>
    "\x7b\"decision\": \"block\", \"reason\": \"" ++ r ++ "\"\x7d"
  | HookOutput.emptyDecision => "\x7b\x7d"

/-- Modelled from the spec: the file-checker `main` — dispatch the edited
file's extension; with no registered checker, write nothing; otherwise run
the checker and emit the block decision exactly when it returns status 2
with a non-empty reason, else the empty object. -/
def file_checker_main (ext : String) (run_checker : CheckerLang → Int × String) :
    Int × Option HookOutput :=
  match checker_for_extension ext with
  | none => (0, none)
  | some lang =>
    let code := (run_checker lang).1
    let reason := (run_checker lang).2
    if code = 2 ∧ reason ≠ "" then (0, some (HookOutput.blockDecision reason))
    else (0, some HookOutput.emptyDecision)

/-! ## C6 — stop-hook validators (`pilot/hooks/spec_plan_validator.py`,
`pilot/hooks/spec_verify_validator.py`)

The JSON read from standard input is modelled as `Option StopHookInput`,
`none` meaning `json.load` raised `JSONDecodeError`; every other system
interaction is an explicit total environment record (the `_util` helper
`is_waiting_for_user_input` is modelled from the spec as a total predicate,
its module being absent from `src/`). -/

/-- The fields of the stop-hook JSON input that the two validators read. -/
structure StopHookInput where
  stop_hook_active : Bool
  transcript_path : String
  project_root : Option String

/-- Environment of `spec_plan_validator`: the transcript predicate, whether
`docs/plans/` exists, and the plan files matching today's glob. -/
structure PlanHookEnv where
  is_waiting : String → Bool
  plansDirExists : Bool
  todayPlans : List String

/-- `spec_plan_validator.main`: malformed JSON allows the stop (exit 0);
an active stop hook or a transcript waiting on the user allows; a missing
plans directory or no plan file for today blocks (exit 2). -/
def spec_plan_validator_main (parsed : Option StopHookInput) (env : PlanHookEnv) : Int :=
  match parsed with
  | none => 0
  | some d =>
    if d.stop_hook_active then 0
    else if (d.transcript_path != "") && env.is_waiting d.transcript_path then 0
    else if !env.plansDirExists then 2
    else if env.todayPlans.isEmpty then 2
    else 0

/-- Environment of `spec_verify_validator`: the transcript predicate,
whether the session's `active_plan.json` exists, its parse outcome (`none`
for `JSONDecodeError`/`OSError`, otherwise the `plan_path` value), whether
the referenced plan file exists, and the outcome of the status regex over
its text (`none` for a read error, `some none` when the regex does not
match, `some (some w)` for a matched status word). -/
structure VerifyHookEnv where
  is_waiting : String → Bool
  activePlanExists : Bool
  parseOutcome : Option String
  planFileExists : String → Bool
  readStatus : String → Option (Option String)

/-- Python's `str.upper` on the matched status word, via character data. -/
def pyUpper (s : String) : String := String.mk (s.data.map Char.toUpper)

/-- `spec_verify_validator.main`: every failure path (malformed JSON,
missing files, read errors, unmatched regex) allows the stop; only a plan
whose status word upper-cases to `"COMPLETE"` blocks. -/
def spec_verify_validator_main (parsed : Option StopHookInput) (env : VerifyHookEnv) : Int :=
  match parsed with
  | none => 0
  | some d =>
    if d.stop_hook_active then 0
    else if (d.transcript_path != "") && env.is_waiting d.transcript_path then 0
    else if !env.activePlanExists then 0
    else
      match env.parseOutcome with
      | none => 0
      | some planPath =>
        if planPath = "" then 0
        else if !env.planFileExists planPath then 0
        else
          match env.readStatus planPath with
          | none => 0
          | some statusMatch =>
            match statusMatch with
            | none => 0
            | some word => if pyUpper word = "COMPLETE" then 2 else 0

/-! ## C10 — the Python checker's status/reason contract
(`pilot/hooks/_checkers/python.py`, `check_python`) -/

/-- The outcomes of the external lint tools as `check_python` observes them:
tool availability (`shutil.which`), the ruff output lines matching the error
pattern, and basedpyright's reported `errorCount`.  The comment-stripping
and `check_file_length` side effects do not influence the returned pair and
are not modelled here. -/
structure PyCheckEnv where
  hasRuff : Bool
  hasBasedpyright : Bool
  ruffErrorLines : List String
  bpErrorCount : Nat

/-- Did either tool report issues? -/
def python_has_issues (env : PyCheckEnv) : Bool :=
  (env.hasRuff && !env.ruffErrorLines.isEmpty) ||
    (env.hasBasedpyright && decide (0 < env.bpErrorCount))

/-- `check_python`: test/spec-named files short-circuit to `(0, "")`; with
neither tool installed the result is `(0, "")`; otherwise the status is 2,
with the composed reason string when issues were found and the empty reason
on a clean pass. -/
def check_python (name : String) (env : PyCheckEnv) : Int × String :=
  if strContainsSub name "test_" || strContainsSub name "spec" then (0, "")
  else if !(env.hasRuff || env.hasBasedpyright) then (0, "")
  else
    if python_has_issues env then
      let ruffPart : List String :=
        if env.hasRuff && !env.ruffErrorLines.isEmpty then
          [toString env.ruffErrorLines.length ++ " ruff"]
        else []
      let bpPart : List String :=
        if env.hasBasedpyright && decide (0 < env.bpErrorCount) then
          [toString env.bpErrorCount ++ " basedpyright"]
        else []
      (2, "Python: " ++ String.intercalate ", " (ruffPart ++ bpPart) ++ " in " ++ name)
    else (2, "")

/-! ## C1 — rule assembly (`.claude/rules/build.py`)

Modelled from the spec: `build.py` is not present under `src/` (only its
unit and e2e tests are).  Per the spec, the builder loads all `*.md` files
from a flat directory "keyed by filename stem, sorted alphabetically" and
produces a document with "a fixed header followed by each standard rule's
content (trailing-whitespace-stripped) separated by a horizontal-rule
divider".  A rule's content is modelled as its list of lines; the directory
listing is a list of (stem, content) pairs in arbitrary iteration order. -/

/-- Lines of one rule file. -/
abbrev RuleContent := List String

/-- A directory listing of rule files: (stem, content) pairs. -/
abbrev RuleFiles := List (String × RuleContent)

/-- Alphabetical order on rule stems. -/
def ruleLe (a b : String × RuleContent) : Prop := strLe a.1 b.1 = true

instance decRuleLe : DecidableRel ruleLe :=
  fun a b => inferInstanceAs (Decidable (strLe a.1 b.1 = true))

/-- Modelled from the spec: `load_rules` returns the rules dict keyed by
stem in sorted order; the dict is modelled as the listing sorted
alphabetically by stem. -/
def load_rules (files : RuleFiles) : RuleFiles := List.insertionSort ruleLe files

/-- The horizontal-rule divider line between assembled rules. -/
def DIVIDER : String := "---"

/-- The fixed auto-generated header of `CLAUDE.md` (content pinned by the
tests up to wording; it contains no divider line). -/
def CLAUDE_MD_HEADER : RuleContent :=
  ["# Claude CodePro Rules", "",
   "Auto-generated - DO NOT EDIT. Regenerated on every `ccp` startup.", ""]

/-- A line consisting solely of whitespace. -/
def isBlankLine (l : String) : Bool := l.data.all (fun c => c.isWhitespace)

/-- Trailing-whitespace-stripping of a rule's content (`content.rstrip()`),
at line granularity: trailing blank lines are dropped. -/
def strip_trailing_blank (c : RuleContent) : RuleContent :=
  (c.reverse.dropWhile isBlankLine).reverse

/-- Join document sections with exactly one divider line between adjacent
sections (the line-level model of `"\n\n---\n\n".join(sections)`). -/
def join_with_divider : List RuleContent → RuleContent
  | [] => []
  | [s] => s
  | s :: rest => s ++ (DIVIDER :: join_with_divider rest)

/-- Modelled from the spec: assemble `CLAUDE.md` — the fixed header followed
by each rule's stripped content in the order produced by `load_rules`, with
divider lines between sections. -/
def build_claude_md (files : RuleFiles) : RuleContent :=
  join_with_divider
    (CLAUDE_MD_HEADER :: (load_rules files).map (fun p => strip_trailing_blank p.2))

/-! ## C9 — comment stripping (`pilot/hooks/_checkers/python.py`,
`strip_python_comments`)

The tokenizer interface is embedded at the point the source consumes it:
the COMMENT tokens of the file, each with its 1-based row, start column and
text (a Python comment runs to the end of its line, so a row carries at
most one comment token and tokenizer rows are strictly increasing — these
facts become hypotheses).  Lines are the `splitlines(keepends=True)` list;
string slicing and `rstrip` are by code points. -/

/-- A COMMENT token produced by `tokenize.generate_tokens`. -/
structure CommentTok where
  row : Nat
  startCol : Nat
  text : String
deriving DecidableEq

/-- Python's `\s` whitespace class (and `str.rstrip`'s default set). -/
def isRegexSpace (c : Char) : Bool :=
  c = ' ' || c = '\t' || c = '\n' || c = '\r' || c = '\x0b' || c = '\x0c'

/-- Python slicing `s[:n]` by code points. -/
def pyTake (s : String) (n : Nat) : String := String.mk (s.data.take n)

/-- Python `s.rstrip()`. -/
def pyRstrip (s : String) : String :=
  String.mk ((s.data.reverse.dropWhile isRegexSpace).reverse)

/-- `line[:start_col].rstrip()` — the content kept when a comment is cut
off its line. -/
def truncate_line (line : String) (startCol : Nat) : String :=
  pyRstrip (pyTake line startCol)

/-- The keyword bodies of the preserve regex alternatives after `#\s*`
(the shebang `#!` alternative is handled separately). -/
def PRESERVE_KEYWORDS : List String :=
  ["type:", "noqa", "pragma:", "pylint:", "pyright:", "ruff:", "fmt:",
   "TODO", "FIXME", "XXX", "NOTE"]

/-- Case-insensitive prefix test (`re.IGNORECASE`). -/
def ciStartsWith : List Char → List Char → Bool
  | [], _ => true
  | _ :: _, [] => false
  | k :: ks, c :: cs => (k.toLower == c.toLower) && ciStartsWith ks cs

/-- Does one of the preserve patterns match at this position?  Each pattern
is `#` followed by `!` or by `\s*` and a keyword; since no keyword starts
with whitespace, `\s*` matches exactly the maximal whitespace run. -/
def preserveHere : List Char → Bool
  | [] => false
  | c :: rest =>
    if c = '#' then
      (match rest with
       | '!' :: _ => true
       | _ => false) ||
      PRESERVE_KEYWORDS.any (fun kw => ciStartsWith kw.data (rest.dropWhile isRegexSpace))
    else false

/-- `re.search`: try the pattern at every position. -/
def preserveSearch_go : List Char → Bool
  | [] => false
  | c :: rest => preserveHere (c :: rest) || preserveSearch_go rest

/-- `preserve_re.search(tok.string)` over the joined preserve patterns. -/
def preserve_search (s : String) : Bool := preserveSearch_go s.data

/-- `comments_to_remove`: the `(start_row, start_col)` of every comment
token whose text matches none of the preserve patterns. -/
def comments_to_remove (toks : List CommentTok) : List (Nat × Nat) :=
  (toks.filter (fun t => !(preserve_search t.text))).map (fun t => (t.row, t.startCol))

/-- The first mutation pass over `reversed(comments_to_remove)`: truncate a
line with content before its comment, or record its index for deletion when
the comment was the line's only content; rows past the line count are
skipped. -/
def mark_pass : List (Nat × Nat) → List String → List Nat → List String × List Nat
  | [], newLines, dels => (newLines, dels)
  | (row, col) :: rest, newLines, dels =>
    let idx := row - 1
    if idx < newLines.length then
      let before := truncate_line (newLines.getD idx "") col
      if before = "" then mark_pass rest newLines (idx :: dels)
      else mark_pass rest (newLines.set idx (before ++ "\n")) dels
    else mark_pass rest newLines dels

instance decGeNat : DecidableRel (fun a b : Nat => b ≤ a) := fun a b => Nat.decLe b a

/-- `sorted(lines_to_delete, reverse=True)` over the collected index set. -/
def sortDescDedup (l : List Nat) : List Nat :=
  List.insertionSort (fun a b => b ≤ a) l.dedup

/-- The deletion pass: `del new_lines[idx]` at each index in descending
order. -/
def delete_pass (dels : List Nat) (ls : List String) : List String :=
  (sortDescDedup dels).foldl (fun acc i => acc.eraseIdx i) ls

/-- `strip_python_comments` after tokenisation: compute the removal list,
return the lines unchanged (and False) when it is empty, otherwise run the
two passes; the Boolean reports whether the content changed (and hence was
written back). -/
def strip_python_comments (lines : List String) (toks : List CommentTok) :
    List String × Bool :=
  let rem := comments_to_remove toks
  if rem.isEmpty then (lines, false)
  else
    let marked := mark_pass rem.reverse lines []
    let result := delete_pass marked.2 marked.1
    (result, decide (result ≠ lines))

/-- Reference form of the per-line transformation, used to state what the
two imperative passes compute: a line with no comment to remove is kept; a
line whose comment leaves content is truncated to that content; a line
whose comment was its only content is deleted. -/
def strip_spec_go (rem : List (Nat × Nat)) (n0 : Nat) : List String → List String
  | [] => []
  | l :: ls =>
    match rem.lookup (n0 + 1) with
    | none => l :: strip_spec_go rem (n0 + 1) ls
    | some col =>
      if truncate_line l col = "" then strip_spec_go rem (n0 + 1) ls
      else (truncate_line l col ++ "\n") :: strip_spec_go rem (n0 + 1) ls

/-- Pointwise edited lines (the state after the first pass). -/
def edit_lines (rem : List (Nat × Nat)) (n0 : Nat) : List String → List String
  | [] => []
  | l :: ls =>
    (match rem.lookup (n0 + 1) with
     | none => l
     | some col =>
       if truncate_line l col = "" then l else truncate_line l col ++ "\n") ::
      edit_lines rem (n0 + 1) ls

/-- Removal of a set of absolute indices from a list, tracking the offset. -/
def removeIdxFrom (S : List Nat) (n0 : Nat) : List String → List String
  | [] => []
  | l :: ls =>
    if n0 ∈ S then removeIdxFrom S (n0 + 1) ls else l :: removeIdxFrom S (n0 + 1) ls

/-! ## Theorems -/

/-- First-match lookup of an appended association list. -/
theorem lookup_append (a b : List (String × α)) (k : String) :
    (a ++ b).lookup k = ((a.lookup k).or (b.lookup k)) := by
  induction a with
  | nil => simp [List.lookup]
  | cons x xs ih =>
    by_cases h : k == x.1
    · simp [List.lookup, h]
    · simp only [List.cons_append, List.lookup, h]
      exact ih

/-- Lookup after a key-preserving value rewrite. -/
theorem lookup_map_rewrite (a b : List (String × α)) (k : String) :
    ((a.map (fun kv => (kv.1, (b.lookup kv.1).getD kv.2))).lookup k) =
      (a.lookup k).map (fun v => (b.lookup k).getD v) := by
  induction a with
  | nil => simp [List.lookup]
  | cons x xs ih =>
    by_cases h : k == x.1
    · have hk : k = x.1 := by simpa using h
      simp [List.lookup, h, hk]
    · simp only [List.map_cons, List.lookup, h]
      exact ih

/-- Lookup in a list filtered by a key-only predicate: if the key passes the
predicate, the first match survives filtering. -/
theorem lookup_filter_keyPred (b : List (String × α)) (p : String → Bool) (k : String)
    (hk : p k = true) :
    ((b.filter (fun kv => p kv.1)).lookup k) = b.lookup k := by
  induction b with
  | nil => rfl
  | cons x xs ih =>
    by_cases h : k == x.1
    · have hk2 : k = x.1 := by simpa using h
      have hpx : p x.1 = true := hk2 ▸ hk
      simp [List.filter_cons, hpx, List.lookup, h]
    · by_cases hp : p x.1 <;> simp [List.filter_cons, List.lookup, h, hp, ih]

/-- The defining lookup property of Python's `{**a, **b}`: `b` wins on shared
keys, `a` supplies the rest. -/
theorem lookup_pyDictMerge (a b : List (String × α)) (k : String) :
    (pyDictMerge a b).lookup k = ((b.lookup k).or (a.lookup k)) := by
  unfold pyDictMerge
  rw [lookup_append, lookup_map_rewrite]
  cases ha : a.lookup k with
  | none =>
    have hp : (fun key => (a.lookup key).isNone) k = true := by simp [ha]
    rw [lookup_filter_keyPred b (fun key => (a.lookup key).isNone) k hp]
    cases b.lookup k <;> rfl
  | some v =>
    cases hb : b.lookup k with
    | none => rfl
    | some w => rfl

/-- C3 counterexample: on a concrete fresh-install context, `BootstrapStep.run`
completes, yet the immediately following `BootstrapStep.check` returns false,
not true — `check` unconditionally returns False for this step. -/
theorem C3_counterexample_bootstrap_check_false :
    ¬(BootstrapStep_check (BootstrapStep_run
      { claudeDirExists := false, localMode := false, backupSucceeds := true
        cfgIsUpgrade := none, cfgBackupPath := none, subdirsCreated := false }) = true) := by
  decide

/-- C3 amended: for the Bootstrap and Dependencies steps, `check` returns
false for every context — including immediately after a successful `run` —
because these steps are designed to run on every invocation; the
run-establishes-check property does not hold for them. -/
theorem C3_amended_check_always_false (s : BootstrapState) (w : DepsWorld) :
    BootstrapStep_check (BootstrapStep_run s) = false ∧
    BootstrapStep_check s = false ∧
    DependenciesStep_check w = false :=
  ⟨rfl, rfl, rfl⟩

/-- Unfolding step for the retry loop. -/
theorem run_bash_retry_go_succ (results : Nat → Bool) (attempt made slept fuel : Nat) :
    run_bash_retry_go results attempt made slept (fuel + 1) =
      (if results attempt then ⟨true, made + 1, slept⟩
       else
        if attempt < MAX_RETRIES - 1 then
          run_bash_retry_go results (attempt + 1) (made + 1) (slept + 1) fuel
        else
          run_bash_retry_go results (attempt + 1) (made + 1) slept fuel : RetryOutcome) := rfl

/-- Full case analysis of `_run_bash_with_retry` over its three attempts. -/
theorem run_bash_with_retry_cases (results : Nat → Bool) :
    (run_bash_with_retry results).attemptsMade ≤ MAX_RETRIES ∧
    (run_bash_with_retry results).sleeps + 1 = (run_bash_with_retry results).attemptsMade ∧
    ((run_bash_with_retry results).success = true ↔
      ∃ i, i < MAX_RETRIES ∧ results i = true) := by
  have hunfold : run_bash_with_retry results =
      run_bash_retry_go results 0 0 0 (2 + 1) := rfl
  rw [hunfold, run_bash_retry_go_succ]
  by_cases h0 : results 0 = true
  · simp only [h0, if_true]
    refine ⟨by norm_num [MAX_RETRIES], by trivial, ?_⟩
    simp only [true_iff]
    exact ⟨0, by norm_num [MAX_RETRIES], h0⟩
  · have h0f : results 0 = false := by simpa using h0
    rw [h0f]
    have hlt0 : (0 < MAX_RETRIES - 1) = True := by simp [MAX_RETRIES]
    simp only [Bool.false_eq_true, if_false, hlt0, if_true]
    have h1unfold : run_bash_retry_go results 1 1 1 2 =
        run_bash_retry_go results 1 1 1 (1 + 1) := rfl
    rw [h1unfold, run_bash_retry_go_succ]
    by_cases h1 : results 1 = true
    · simp only [h1, if_true]
      refine ⟨by norm_num [MAX_RETRIES], by trivial, ?_⟩
      simp only [true_iff]
      exact ⟨1, by norm_num [MAX_RETRIES], h1⟩
    · have h1f : results 1 = false := by simpa using h1
      rw [h1f]
      have hlt1 : (1 < MAX_RETRIES - 1) = True := by simp [MAX_RETRIES]
      simp only [Bool.false_eq_true, if_false, hlt1, if_true]
      have h2unfold : run_bash_retry_go results 2 2 2 1 =
          run_bash_retry_go results 2 2 2 (0 + 1) := rfl
      rw [h2unfold, run_bash_retry_go_succ]
      by_cases h2 : results 2 = true
      · simp only [h2, if_true]
        refine ⟨by norm_num [MAX_RETRIES], by trivial, ?_⟩
        simp only [true_iff]
        exact ⟨2, by norm_num [MAX_RETRIES], h2⟩
      · have h2f : results 2 = false := by simpa using h2
        rw [h2f]
        have hlt2 : (2 < MAX_RETRIES - 1) = False := by simp [MAX_RETRIES]
        simp only [Bool.false_eq_true, if_false, hlt2]
        refine ⟨by norm_num [run_bash_retry_go, MAX_RETRIES], rfl, ?_⟩
        constructor
        · intro hfalse
          simp [run_bash_retry_go] at hfalse
        · rintro ⟨i, hi, hri⟩
          have : i = 0 ∨ i = 1 ∨ i = 2 := by
            simp [MAX_RETRIES] at hi
            omega
          rcases this with rfl | rfl | rfl
          · rw [h0f] at hri; exact absurd hri (by simp)
          · rw [h1f] at hri; exact absurd hri (by simp)
          · rw [h2f] at hri; exact absurd hri (by simp)

/-- A Python tool already on PATH is never passed to `uv tool install`. -/
theorem py_tools_present_not_attempted (w : DepsWorld) (t : String)
    (hpath : w.onPath t = true) :
    ∀ (ts acc : List String), t ∉ acc → t ∉ (install_python_tools_go w ts acc).2 := by
  intro ts
  induction ts with
  | nil => intro acc hacc; simpa [install_python_tools_go] using hacc
  | cons u rest ih =>
    intro acc hacc
    by_cases hu : w.onPath u = true
    · simpa [install_python_tools_go, hu] using ih acc hacc
    · have hne : t ≠ u := fun he => hu (he ▸ hpath)
      have hacc2 : t ∉ acc ++ [u] := by
        simp only [List.mem_append, List.mem_singleton]
        rintro (h | h)
        · exact hacc h
        · exact hne h
      by_cases hv : w.uvToolInstall u = true
      · simpa [install_python_tools_go, hu, hv] using ih (acc ++ [u]) hacc2
      · have hu2 : w.onPath u = false := by simpa using hu
        have hv2 : w.uvToolInstall u = false := by simpa using hv
        simpa [install_python_tools_go, hu2, hv2] using hacc2

/-- C8 amended: Node.js, uv, Claude Code, qlty and dotenvx are each
PATH-checked first and, when absent, installed by a shell command retried up
to `MAX_RETRIES` attempts with exactly one fixed delay between consecutive
attempts; the Python tools are PATH-checked first but installed by a single
un-retried `uv tool install` each; and failure of any install unit neither
prevents the other units from being attempted nor aborts the step, whose
recorded `installed_dependencies` entry for each unit depends only on that
unit's own outcome. -/
theorem C8_amended_dependencies_step (results : Nat → Bool) (w : DepsWorld) :
    ((run_bash_with_retry results).attemptsMade ≤ MAX_RETRIES ∧
      (run_bash_with_retry results).sleeps + 1 = (run_bash_with_retry results).attemptsMade ∧
      ((run_bash_with_retry results).success = true ↔
        ∃ i, i < MAX_RETRIES ∧ results i = true)) ∧
    (w.onPath "node" = true → install_nodejs w = true) ∧
    (w.onPath "uv" = true → install_uv w = true) ∧
    (w.onPath "claude" = true → install_claude_code w = true) ∧
    (w.onPath "qlty" = true → install_qlty w = true) ∧
    (w.onPath "dotenvx" = true → install_dotenvx w = true) ∧
    (∀ t ∈ PY_TOOLS, w.onPath t = true → t ∉ (install_python_tools w).2) ∧
    ("nodejs" ∈ DependenciesStep_run w ↔ install_nodejs w = true) ∧
    ("uv" ∈ DependenciesStep_run w ↔ (w.installPython = true ∧ install_uv w = true)) ∧
    ("python_tools" ∈ DependenciesStep_run w ↔
      (w.installPython = true ∧ (install_python_tools w).1 = true)) ∧
    ("claude_code" ∈ DependenciesStep_run w ↔ install_claude_code w = true) ∧
    ("qlty" ∈ DependenciesStep_run w ↔ install_qlty w = true) ∧
    ("dotenvx" ∈ DependenciesStep_run w ↔ install_dotenvx w = true) := by
  refine ⟨run_bash_with_retry_cases results, ?_, ?_, ?_, ?_, ?_, ?_, ?_, ?_, ?_, ?_, ?_, ?_⟩
  · intro h; simp [install_nodejs, h]
  · intro h; simp [install_uv, h]
  · intro h; simp [install_claude_code, h]
  · intro h; simp [install_qlty, h]
  · intro h; simp [install_dotenvx, h]
  · intro t _ hpath
    exact py_tools_present_not_attempted w t hpath PY_TOOLS [] (by simp)
  · unfold DependenciesStep_run
    split_ifs <;> simp_all
  · unfold DependenciesStep_run
    split_ifs <;> simp_all
  · unfold DependenciesStep_run
    split_ifs <;> simp_all
  · unfold DependenciesStep_run
    split_ifs <;> simp_all
  · unfold DependenciesStep_run
    split_ifs <;> simp_all
  · unfold DependenciesStep_run
    split_ifs <;> simp_all

/-- C8 witness: the amended theorem instantiated at a command succeeding at
the second attempt and at the concrete failing environment. -/
theorem C8_amended_witness :
    ((run_bash_with_retry (fun i => i == 1)).attemptsMade ≤ MAX_RETRIES ∧
      (run_bash_with_retry (fun i => i == 1)).sleeps + 1 =
        (run_bash_with_retry (fun i => i == 1)).attemptsMade ∧
      ((run_bash_with_retry (fun i => i == 1)).success = true ↔
        ∃ i, i < MAX_RETRIES ∧ (fun i : Nat => i == 1) i = true)) ∧
    (depsWorldCounter.onPath "node" = true → install_nodejs depsWorldCounter = true) ∧
    (depsWorldCounter.onPath "uv" = true → install_uv depsWorldCounter = true) ∧
    (depsWorldCounter.onPath "claude" = true → install_claude_code depsWorldCounter = true) ∧
    (depsWorldCounter.onPath "qlty" = true → install_qlty depsWorldCounter = true) ∧
    (depsWorldCounter.onPath "dotenvx" = true → install_dotenvx depsWorldCounter = true) ∧
    (∀ t ∈ PY_TOOLS, depsWorldCounter.onPath t = true →
      t ∉ (install_python_tools depsWorldCounter).2) ∧
    ("nodejs" ∈ DependenciesStep_run depsWorldCounter ↔
      install_nodejs depsWorldCounter = true) ∧
    ("uv" ∈ DependenciesStep_run depsWorldCounter ↔
      (depsWorldCounter.installPython = true ∧ install_uv depsWorldCounter = true)) ∧
    ("python_tools" ∈ DependenciesStep_run depsWorldCounter ↔
      (depsWorldCounter.installPython = true ∧
        (install_python_tools depsWorldCounter).1 = true)) ∧
    ("claude_code" ∈ DependenciesStep_run depsWorldCounter ↔
      install_claude_code depsWorldCounter = true) ∧
    ("qlty" ∈ DependenciesStep_run depsWorldCounter ↔
      install_qlty depsWorldCounter = true) ∧
    ("dotenvx" ∈ DependenciesStep_run depsWorldCounter ↔
      install_dotenvx depsWorldCounter = true) :=
  C8_amended_dependencies_step (fun i => i == 1) depsWorldCounter

/-- C8 counterexample: in the concrete environment where every tool is
absent from PATH and ruff's `uv tool install` fails, mypy's installation is
never attempted — refuting, at this input, that every absent tool's install
command runs with retries and that one tool's failed installation does not
prevent the remaining tools' installations from being attempted. -/
theorem C8_counterexample_mypy_never_attempted :
    depsWorldCounter.onPath "mypy" = false ∧
    depsWorldCounter.installPython = true ∧
    "ruff" ∈ (install_python_tools depsWorldCounter).2 ∧
    "mypy" ∉ (install_python_tools depsWorldCounter).2 := by
  decide

/-- A lookup that already succeeds in the parent directory survives the move
loop: conflicting files from the legacy subdirectory are skipped, and moved
files are appended after the existing entries. -/
theorem lookup_moveFiles_of_some (files parent : List (String × String))
    (k : String) (v : String) (h : parent.lookup k = some v) :
    (moveFiles parent files).lookup k = some v := by
  induction files generalizing parent with
  | nil => simpa [moveFiles] using h
  | cons f fs ih =>
    by_cases hc : (parent.lookup f.1).isSome
    · simpa [moveFiles, hc] using ih parent h
    · have h2 : (parent ++ [f]).lookup k = some v := by
        rw [lookup_append, h]
        rfl
      simpa [moveFiles, hc] using ih (parent ++ [f]) h2

/-- Filtering out a key removes it from lookup entirely. -/
theorem lookup_filter_ne_self (l : List (String × α)) (m : String) :
    ((l.filter (fun p => !(p.1 == m))).lookup m) = none := by
  induction l with
  | nil => rfl
  | cons x xs ih =>
    obtain ⟨a, b⟩ := x
    by_cases hx : a = m
    · subst hx
      simp only [List.filter_cons, beq_self_eq_true, Bool.not_true, Bool.false_eq_true,
        if_false]
      exact ih
    · have hab : (a == m) = false := beq_eq_false_iff_ne.mpr hx
      have hma : (m == a) = false := beq_eq_false_iff_ne.mpr fun hc => hx hc.symm
      simp only [List.filter_cons, hab, Bool.not_false, if_true, List.lookup, hma]
      exact ih

/-- Filtering out a different key leaves a lookup unchanged. -/
theorem lookup_filter_ne_other (l : List (String × α)) (m k : String) (h : k ≠ m) :
    ((l.filter (fun p => !(p.1 == m))).lookup k) = l.lookup k := by
  induction l with
  | nil => rfl
  | cons x xs ih =>
    obtain ⟨a, b⟩ := x
    by_cases hx : a = m
    · subst hx
      have hk : (k == a) = false := beq_eq_false_iff_ne.mpr h
      simp only [List.filter_cons, beq_self_eq_true, Bool.not_true, Bool.false_eq_true,
        if_false, List.lookup, hk]
      exact ih
    · have hab : (a == m) = false := beq_eq_false_iff_ne.mpr hx
      by_cases hkx : k = a
      · subst hkx
        simp only [List.filter_cons, hab, Bool.not_false, if_true, List.lookup,
          beq_self_eq_true]
      · have hk : (k == a) = false := beq_eq_false_iff_ne.mpr hkx
        simp only [List.filter_cons, hab, Bool.not_false, if_true, List.lookup, hk]
        exact ih

/-- A lookup that misses also misses in any filtered sublist. -/
theorem lookup_filter_none (l : List (String × α)) (q : String × α → Bool) (k : String)
    (h : l.lookup k = none) : ((l.filter q).lookup k) = none := by
  induction l with
  | nil => rfl
  | cons x xs ih =>
    obtain ⟨a, b⟩ := x
    by_cases hkx : k = a
    · subst hkx
      simp [List.lookup] at h
    · have hk : (k == a) = false := beq_eq_false_iff_ne.mpr hkx
      have h2 : xs.lookup k = none := by
        simpa only [List.lookup, hk] using h
      by_cases hq : q (a, b) = true
      · simp only [List.filter_cons, hq, if_true, List.lookup, hk]
        exact ih h2
      · have hq2 : q (a, b) = false := by simpa using hq
        simp only [List.filter_cons, hq2, Bool.false_eq_true, if_false]
        exact ih h2

/-- `flattenSubdir` keeps every file already present at the parent level. -/
theorem flattenSubdir_parent_some (d : SourceDir) (n k v : String)
    (h : d.parentFiles.lookup k = some v) :
    ((flattenSubdir d n).parentFiles.lookup k) = some v := by
  unfold flattenSubdir
  cases hl : d.subdirs.lookup n with
  | none => simpa using h
  | some files => simpa using lookup_moveFiles_of_some files d.parentFiles k v h

/-- `flattenSubdir` never creates a subdirectory. -/
theorem flattenSubdir_subdir_none (d : SourceDir) (n m : String)
    (h : d.subdirs.lookup m = none) :
    ((flattenSubdir d n).subdirs.lookup m) = none := by
  unfold flattenSubdir
  cases hl : d.subdirs.lookup n with
  | none => simpa using h
  | some files => exact lookup_filter_none d.subdirs _ m h

/-- `flattenSubdir` removes the processed subdirectory. -/
theorem flattenSubdir_subdir_self (d : SourceDir) (n : String) (files : List (String × String))
    (h : d.subdirs.lookup n = some files) :
    ((flattenSubdir d n).subdirs.lookup n) = none := by
  unfold flattenSubdir
  rw [h]
  simpa using lookup_filter_ne_self d.subdirs n

/-- `flattenSubdir` does not disturb other subdirectories. -/
theorem flattenSubdir_subdir_other (d : SourceDir) (n m : String) (h : m ≠ n) :
    ((flattenSubdir d n).subdirs.lookup m) = d.subdirs.lookup m := by
  unfold flattenSubdir
  cases hl : d.subdirs.lookup n with
  | none => rfl
  | some files => simpa using lookup_filter_ne_other d.subdirs n m h

/-- `flattenSource` keeps every file already present at the parent level. -/
theorem flattenSource_parent_some (d : SourceDir) (k v : String)
    (h : d.parentFiles.lookup k = some v) :
    ((flattenSource d).parentFiles.lookup k) = some v := by
  unfold flattenSource OLD_SUBDIRS
  simp only [List.foldl_cons, List.foldl_nil]
  exact flattenSubdir_parent_some _ _ _ _ (flattenSubdir_parent_some _ _ _ _
    (flattenSubdir_parent_some _ _ _ _ h))

/-- `flattenSource` removes every legacy subdirectory that existed. -/
theorem flattenSource_subdir_erased (d : SourceDir) (sub : String)
    (hsub : sub ∈ OLD_SUBDIRS) (hex : (d.subdirs.lookup sub).isSome = true) :
    ((flattenSource d).subdirs.lookup sub) = none := by
  obtain ⟨files, hfiles⟩ := Option.isSome_iff_exists.mp hex
  have hcases : sub = "core" ∨ sub = "workflow" ∨ sub = "extended" := by
    simpa [OLD_SUBDIRS] using hsub
  unfold flattenSource OLD_SUBDIRS
  simp only [List.foldl_cons, List.foldl_nil]
  rcases hcases with h1 | h2 | h3
  · subst h1
    refine flattenSubdir_subdir_none _ _ _ (flattenSubdir_subdir_none _ _ _ ?_)
    exact flattenSubdir_subdir_self d _ files hfiles
  · subst h2
    refine flattenSubdir_subdir_none _ _ _ ?_
    refine flattenSubdir_subdir_self _ _ files ?_
    rw [flattenSubdir_subdir_other d "core" "workflow" (by decide)]
    exact hfiles
  · subst h3
    refine flattenSubdir_subdir_self _ _ files ?_
    rw [flattenSubdir_subdir_other _ "workflow" "extended" (by decide)]
    rw [flattenSubdir_subdir_other d "core" "extended" (by decide)]
    exact hfiles

/-- C4: over a legacy layout in which the same markdown filename exists both
in a legacy subdirectory (content A) and at its parent level (content B),
after `run_migration` the parent-level file still contains B, the legacy
subdirectory no longer exists even if it still contained files, and the
legacy `config.yaml` at the rules root has been deleted. -/
theorem C4_migration_parent_wins (s : RulesState) (d : SourceDir)
    (sub fname contentA contentB : String)
    (files : List (String × String))
    (hrules : s.rulesExists = true)
    (hstd : s.standard = some d)
    (hsub : sub ∈ OLD_SUBDIRS)
    (hfiles : d.subdirs.lookup sub = some files)
    (hconflict : files.lookup fname = some contentA)
    (hparent : d.parentFiles.lookup fname = some contentB) :
    ∃ d2 : SourceDir, (run_migration s).standard = some d2 ∧
      d2.parentFiles.lookup fname = some contentB ∧
      d2.subdirs.lookup sub = none ∧
      (run_migration s).configYaml = false := by
  have hneed : needs_migration s = true := by
    have hex : subdirExists s.standard sub = true := by
      simp [subdirExists, hstd, hfiles]
    have hany : sourceNeedsMigration s.standard = true := by
      simp only [sourceNeedsMigration, List.any_eq_true]
      exact ⟨sub, hsub, hex⟩
    simp [needs_migration, hrules, hany]
  refine ⟨flattenSource d, ?_, ?_, ?_, ?_⟩
  · simp [run_migration, hneed, hstd]
  · exact flattenSource_parent_some d fname contentB hparent
  · exact flattenSource_subdir_erased d sub hsub (by simp [hfiles])
  · simp [run_migration, hneed]

/-- C4 witness: the theorem applied to a concrete conflicting layout. -/
theorem C4_migration_witness :
    ∃ d2 : SourceDir,
      (run_migration
        { rulesExists := true
          standard := some
            { parentFiles := [("x.md", "B")]
              subdirs := [("core", [("x.md", "A")])] }
          custom := none
          configYaml := true }).standard = some d2 ∧
      d2.parentFiles.lookup "x.md" = some "B" ∧
      d2.subdirs.lookup "core" = none ∧
      (run_migration
        { rulesExists := true
          standard := some
            { parentFiles := [("x.md", "B")]
              subdirs := [("core", [("x.md", "A")])] }
          custom := none
          configYaml := true }).configYaml = false :=
  C4_migration_parent_wins _
    { parentFiles := [("x.md", "B")], subdirs := [("core", [("x.md", "A")])] }
    "core" "x.md" "A" "B" [("x.md", "A")] rfl rfl (by decide) rfl rfl rfl

/-- Characters with equal code points are equal. -/
theorem char_eq_of_toNat_eq {a b : Char} (h : a.toNat = b.toNat) : a = b := by
  have h2 := congrArg Char.ofNat h
  rwa [Char.ofNat_toNat, Char.ofNat_toNat] at h2

/-- `lexLe` is total. -/
theorem lexLe_total : ∀ a b : List Char, lexLe a b = true ∨ lexLe b a = true
  | [], _ => Or.inl rfl
  | _ :: _, [] => Or.inr rfl
  | x :: xs, y :: ys => by
    rcases Nat.lt_trichotomy x.toNat y.toNat with hlt | heq | hgt
    · left
      simp [lexLe, hlt]
    · have hnlt1 : ¬x.toNat < y.toNat := by omega
      have hnlt2 : ¬y.toNat < x.toNat := by omega
      rcases lexLe_total xs ys with h | h
      · left; simp [lexLe, hnlt1, hnlt2, h]
      · right; simp [lexLe, hnlt1, hnlt2, h]
    · right
      simp [lexLe, hgt]

/-- `lexLe` is transitive. -/
theorem lexLe_trans : ∀ {a b c : List Char},
    lexLe a b = true → lexLe b c = true → lexLe a c = true
  | [], _, _, _, _ => rfl
  | x :: xs, [], _, h1, _ => by simp [lexLe] at h1
  | x :: xs, y :: ys, [], _, h2 => by simp [lexLe] at h2
  | x :: xs, y :: ys, z :: zs, h1, h2 => by
    rcases Nat.lt_trichotomy x.toNat y.toNat with hxy | hxy | hxy
    · rcases Nat.lt_trichotomy y.toNat z.toNat with hyz | hyz | hyz
      · simp [lexLe, show x.toNat < z.toNat by omega]
      · simp [lexLe, show x.toNat < z.toNat by omega]
      · simp [lexLe, show ¬y.toNat < z.toNat by omega, hyz] at h2
    · rcases Nat.lt_trichotomy y.toNat z.toNat with hyz | hyz | hyz
      · simp [lexLe, show x.toNat < z.toNat by omega]
      · have h1r : lexLe xs ys = true := by
          simpa [lexLe, show ¬x.toNat < y.toNat by omega,
            show ¬y.toNat < x.toNat by omega] using h1
        have h2r : lexLe ys zs = true := by
          simpa [lexLe, show ¬y.toNat < z.toNat by omega,
            show ¬z.toNat < y.toNat by omega] using h2
        have := lexLe_trans h1r h2r
        simp [lexLe, show ¬x.toNat < z.toNat by omega,
          show ¬z.toNat < x.toNat by omega, this]
      · simp [lexLe, show ¬y.toNat < z.toNat by omega, hyz] at h2
    · simp [lexLe, show ¬x.toNat < y.toNat by omega, hxy] at h1

/-- `lexLe` is antisymmetric. -/
theorem lexLe_antisymm : ∀ {a b : List Char},
    lexLe a b = true → lexLe b a = true → a = b
  | [], [], _, _ => rfl
  | [], _ :: _, _, h2 => by simp [lexLe] at h2
  | _ :: _, [], h1, _ => by simp [lexLe] at h1
  | x :: xs, y :: ys, h1, h2 => by
    rcases Nat.lt_trichotomy x.toNat y.toNat with hxy | hxy | hxy
    · simp [lexLe, show ¬y.toNat < x.toNat by omega, hxy] at h2
    · have h1r : lexLe xs ys = true := by
        simpa [lexLe, show ¬x.toNat < y.toNat by omega,
          show ¬y.toNat < x.toNat by omega] using h1
      have h2r : lexLe ys xs = true := by
        simpa [lexLe, show ¬x.toNat < y.toNat by omega,
          show ¬y.toNat < x.toNat by omega] using h2
      rw [char_eq_of_toNat_eq hxy, lexLe_antisymm h1r h2r]
    · simp [lexLe, show ¬x.toNat < y.toNat by omega, hxy] at h1

/-- `load_rules` depends only on the set of rule files, not on the
directory iteration order, when stems are unique. -/
theorem load_rules_perm_eq (files1 files2 : RuleFiles)
    (hperm : files1.Perm files2) (hnodup : (files1.map Prod.fst).Nodup) :
    load_rules files1 = load_rules files2 := by
  haveI htot : IsTotal (String × RuleContent) ruleLe :=
    ⟨fun a b => lexLe_total a.1.data b.1.data⟩
  haveI htr : IsTrans (String × RuleContent) ruleLe :=
    ⟨fun a b c h1 h2 => lexLe_trans h1 h2⟩
  haveI hanti : IsAntisymm (String × RuleContent)
      (fun a b => ruleLe a b ∧ a.1 ≠ b.1) := by
    constructor
    intro a b h1 h2
    have hdata : a.1.data = b.1.data := lexLe_antisymm h1.1 h2.1
    have hstem : a.1 = b.1 := by
      cases ha : a.1
      cases hb : b.1
      rw [ha, hb] at hdata
      exact congrArg String.mk hdata
    exact absurd hstem h1.2
  have hp1 : (load_rules files1).Perm files1 := List.perm_insertionSort ruleLe files1
  have hp2 : (load_rules files2).Perm files2 := List.perm_insertionSort ruleLe files2
  have hs1 : List.Sorted ruleLe (load_rules files1) := List.sorted_insertionSort ruleLe files1
  have hs2 : List.Sorted ruleLe (load_rules files2) := List.sorted_insertionSort ruleLe files2
  have hn1 : ((load_rules files1).map Prod.fst).Nodup :=
    ((hp1.map Prod.fst).nodup_iff).mpr hnodup
  have hnodup2 : (files2.map Prod.fst).Nodup := ((hperm.map Prod.fst).nodup_iff).mp hnodup
  have hn2 : ((load_rules files2).map Prod.fst).Nodup :=
    ((hp2.map Prod.fst).nodup_iff).mpr hnodup2
  have hne1 : (load_rules files1).Pairwise (fun a b => a.1 ≠ b.1) :=
    (List.pairwise_map).mp hn1
  have hne2 : (load_rules files2).Pairwise (fun a b => a.1 ≠ b.1) :=
    (List.pairwise_map).mp hn2
  have hs1x : List.Sorted (fun a b => ruleLe a b ∧ a.1 ≠ b.1) (load_rules files1) :=
    List.Pairwise.and hs1 hne1
  have hs2x : List.Sorted (fun a b => ruleLe a b ∧ a.1 ≠ b.1) (load_rules files2) :=
    List.Pairwise.and hs2 hne2
  exact List.eq_of_perm_of_sorted (hp1.trans (hperm.trans hp2.symm)) hs1x hs2x

/-- Every line of a stripped content was a line of the content. -/
theorem mem_of_mem_strip (c : RuleContent) (x : String)
    (hx : x ∈ strip_trailing_blank c) : x ∈ c := by
  unfold strip_trailing_blank at hx
  have h1 := List.mem_reverse.mp hx
  have h2 := (List.dropWhile_sublist isBlankLine).subset h1
  exact List.mem_reverse.mp h2

/-- Divider count of a joined document whose sections are divider-free:
exactly one divider between each adjacent pair of sections. -/
theorem count_join_with_divider : ∀ cs : List RuleContent,
    (∀ c ∈ cs, DIVIDER ∉ c) →
    (join_with_divider cs).count DIVIDER = cs.length - 1
  | [], _ => rfl
  | [s], hfree => by
    have h0 : (s.count DIVIDER) = 0 :=
      List.count_eq_zero.mpr (hfree s (by simp))
    simpa [join_with_divider] using h0
  | s :: r :: rs, hfree => by
    have hs : s.count DIVIDER = 0 := List.count_eq_zero.mpr (hfree s (by simp))
    have hrest : ∀ c ∈ r :: rs, DIVIDER ∉ c := fun c hc => hfree c (by simp [hc])
    have ih := count_join_with_divider (r :: rs) hrest
    show ((s ++ DIVIDER :: join_with_divider (r :: rs)).count DIVIDER) =
      (s :: r :: rs).length - 1
    rw [List.count_append, hs, List.count_cons]
    simp only [List.length_cons] at ih ⊢
    rw [ih]
    simp

/-- C1: the generated document is independent of the directory iteration
order; the rules it lists are sorted alphabetically by stem and are exactly
the input rules; and with divider-free rule contents the document contains
exactly one divider line per adjacent pair of sections. -/
theorem C1_rules_build_sorted_dividers (files1 files2 : RuleFiles)
    (hperm : files1.Perm files2)
    (hnodup : (files1.map Prod.fst).Nodup)
    (hfree : ∀ p ∈ files1, DIVIDER ∉ p.2) :
    build_claude_md files1 = build_claude_md files2 ∧
    (load_rules files1).Pairwise ruleLe ∧
    ((load_rules files1).map Prod.fst).Perm (files1.map Prod.fst) ∧
    (build_claude_md files1).count DIVIDER = files1.length := by
  haveI htot : IsTotal (String × RuleContent) ruleLe :=
    ⟨fun a b => lexLe_total a.1.data b.1.data⟩
  haveI htr : IsTrans (String × RuleContent) ruleLe :=
    ⟨fun a b c h1 h2 => lexLe_trans h1 h2⟩
  refine ⟨?_, ?_, ?_, ?_⟩
  · unfold build_claude_md
    rw [load_rules_perm_eq files1 files2 hperm hnodup]
  · exact List.sorted_insertionSort ruleLe files1
  · exact (List.perm_insertionSort ruleLe files1).map Prod.fst
  · have hfreeAll : ∀ c ∈ CLAUDE_MD_HEADER ::
        (load_rules files1).map (fun p => strip_trailing_blank p.2), DIVIDER ∉ c := by
      intro c hc
      rcases List.mem_cons.mp hc with hhd | htl
      · subst hhd
        decide
      · rcases List.mem_map.mp htl with ⟨p, hp, hpc⟩
        subst hpc
        intro hdm
        have hpf : p ∈ files1 := (List.mem_insertionSort ruleLe).mp hp
        exact hfree p hpf (mem_of_mem_strip p.2 DIVIDER hdm)
    have hcount := count_join_with_divider _ hfreeAll
    unfold build_claude_md
    rw [hcount]
    simp only [List.length_cons, List.length_map]
    have hlen : (load_rules files1).length = files1.length :=
      (List.perm_insertionSort ruleLe files1).length_eq
    omega

/-- C1 witness: the theorem applied to a concrete three-rule listing in two
iteration orders. -/
theorem C1_rules_build_witness :
    build_claude_md [("zebra", ["Z"]), ("alpha", ["A"]), ("beta", ["B"])] =
      build_claude_md [("alpha", ["A"]), ("beta", ["B"]), ("zebra", ["Z"])] ∧
    (load_rules [("zebra", ["Z"]), ("alpha", ["A"]), ("beta", ["B"])]).Pairwise ruleLe ∧
    ((load_rules [("zebra", ["Z"]), ("alpha", ["A"]), ("beta", ["B"])]).map
      Prod.fst).Perm
      (([("zebra", ["Z"]), ("alpha", ["A"]), ("beta", ["B"])] : RuleFiles).map Prod.fst) ∧
    (build_claude_md [("zebra", ["Z"]), ("alpha", ["A"]), ("beta", ["B"])]).count DIVIDER
      = ([("zebra", ["Z"]), ("alpha", ["A"]), ("beta", ["B"])] : RuleFiles).length :=
  C1_rules_build_sorted_dividers
    [("zebra", ["Z"]), ("alpha", ["A"]), ("beta", ["B"])]
    [("alpha", ["A"]), ("beta", ["B"]), ("zebra", ["Z"])]
    (by decide) (by decide) (by decide)

/-- The first pass never changes the number of lines. -/
theorem mark_pass_length (ds : List (Nat × Nat)) (ls : List String) (dels : List Nat) :
    (mark_pass ds ls dels).1.length = ls.length := by
  induction ds generalizing ls dels with
  | nil => rfl
  | cons p rest ih =>
    obtain ⟨row, col⟩ := p
    simp only [mark_pass]
    by_cases hb : row - 1 < ls.length
    · simp only [hb, if_true]
      by_cases he : truncate_line (ls.getD (row - 1) "") col = ""
      · simp only [he, if_true]
        exact ih ls ((row - 1) :: dels)
      · simp only [he, if_false]
        rw [ih]
        exact List.length_set ls (row - 1) _
    · simp only [hb, if_false]
      exact ih ls dels

/-- A line whose row carries no comment to remove is untouched by the first pass. -/
theorem mark_pass_untouched (ds : List (Nat × Nat)) (ls : List String) (dels : List Nat)
    (hlb : ∀ p ∈ ds, 1 ≤ p.1)
    (i : Nat) (hi : i < ls.length) (hni : (i + 1) ∉ ds.map Prod.fst) :
    (mark_pass ds ls dels).1.getD i "" = ls.getD i "" := by
  induction ds generalizing ls dels with
  | nil => rfl
  | cons p rest ih =>
    obtain ⟨row, col⟩ := p
    have hrow1 : 1 ≤ row := hlb (row, col) (by simp)
    have hne : i + 1 ≠ row := by
      intro hc
      exact hni (by simp [← hc])
    have hidx : row - 1 ≠ i := by omega
    have hlb2 : ∀ p ∈ rest, 1 ≤ p.1 := fun p hp => hlb p (by simp [hp])
    have hni2 : (i + 1) ∉ rest.map Prod.fst := fun hc => hni (by simp [hc])
    simp only [mark_pass]
    by_cases hb : row - 1 < ls.length
    · simp only [hb, if_true]
      by_cases he : truncate_line (ls.getD (row - 1) "") col = ""
      · simp only [he, if_true]
        exact ih ls ((row - 1) :: dels) hlb2 hi hni2
      · simp only [he, if_false]
        rw [ih (ls.set (row - 1) _) dels hlb2 (by simpa using hi) hni2]
        rw [List.getD_eq_getElem _ _ (by simpa using hi), List.getD_eq_getElem _ _ hi]
        exact List.getElem_set_ne hidx (by simpa using hi)
    · simp only [hb, if_false]
      exact ih ls dels hlb2 hi hni2

/-- The first pass rewrites exactly the targeted line: truncation when content precedes the comment, no edit (pending deletion) otherwise. -/
theorem mark_pass_target (ds : List (Nat × Nat)) (ls : List String) (dels : List Nat)
    (hnd : ds.map Prod.fst |>.Nodup)
    (hlb : ∀ p ∈ ds, 1 ≤ p.1)
    (r c : Nat) (hmem : (r, c) ∈ ds) (hr : r - 1 < ls.length) :
    (truncate_line (ls.getD (r - 1) "") c ≠ "" →
      (mark_pass ds ls dels).1.getD (r - 1) "" =
        truncate_line (ls.getD (r - 1) "") c ++ "\n") ∧
    (truncate_line (ls.getD (r - 1) "") c = "" →
      (mark_pass ds ls dels).1.getD (r - 1) "" = ls.getD (r - 1) "") := by
  induction ds generalizing ls dels with
  | nil => simp at hmem
  | cons p rest ih =>
    obtain ⟨row, col⟩ := p
    have hlb2 : ∀ q ∈ rest, 1 ≤ q.1 := fun q hq => hlb q (by simp [hq])
    have hnd2 : (rest.map Prod.fst).Nodup := by
      simpa using hnd.of_cons
    have hnd3 := hnd
    rw [List.map_cons] at hnd3
    have hpair := List.nodup_cons.mp hnd3
    rcases List.mem_cons.mp hmem with hhd | htl
    · -- the head is our comment
      injection hhd with h1 h2
      subst h1; subst h2
      have hrow1 : 1 ≤ r := hlb (r, c) (by simp)
      have hnotin : (r - 1) + 1 ∉ rest.map Prod.fst := by
        have heq : r - 1 + 1 = r := by omega
        rw [heq]
        exact hpair.1
      simp only [mark_pass, hr, if_true]
      constructor
      · intro hne
        simp only [hne, if_false]
        rw [mark_pass_untouched rest _ dels hlb2 (r - 1)
          (by simpa using hr) hnotin]
        rw [List.getD_eq_getElem _ _ (by simpa using hr)]
        rw [List.getElem_set_self]
      · intro heq
        simp only [heq, if_true]
        exact mark_pass_untouched rest ls ((r - 1) :: dels) hlb2 (r - 1) hr hnotin
    · -- our comment is in the tail
      have hrow1 : 1 ≤ row := hlb (row, col) (by simp)
      have hrr : 1 ≤ r := hlb (r, c) (by simp [htl])
      have hner : row ≠ r := by
        intro hc2
        exact hpair.1 (List.mem_map.mpr ⟨(r, c), htl, hc2.symm⟩)
      have hidxne : row - 1 ≠ r - 1 := by omega
      simp only [mark_pass]
      by_cases hb : row - 1 < ls.length
      · simp only [hb, if_true]
        by_cases he : truncate_line (ls.getD (row - 1) "") col = ""
        · simp only [he, if_true]
          exact ih ls ((row - 1) :: dels) hnd2 hlb2 htl hr
        · simp only [he, if_false]
          have hgd : (ls.set (row - 1) (truncate_line (ls.getD (row - 1) "") col ++ "\n")).getD
              (r - 1) "" = ls.getD (r - 1) "" := by
            rw [List.getD_eq_getElem _ _ (by simpa using hr), List.getD_eq_getElem _ _ hr]
            exact List.getElem_set_ne hidxne (by simpa using hr)
          have := ih (ls.set (row - 1) (truncate_line (ls.getD (row - 1) "") col ++ "\n"))
            dels hnd2 hlb2 htl (by simpa using hr)
          rw [hgd] at this
          exact this
      · simp only [hb, if_false]
        exact ih ls dels hnd2 hlb2 htl hr

/-- The deletion set collected by the first pass: exactly the indices of lines whose comment was the only content. -/
theorem mark_pass_dels (ds : List (Nat × Nat)) (ls : List String) (dels : List Nat)
    (hnd : (ds.map Prod.fst).Nodup)
    (hlb : ∀ p ∈ ds, 1 ≤ p.1) :
    ∀ i : Nat, (i ∈ (mark_pass ds ls dels).2 ↔
      (i ∈ dels ∨ ∃ c, (i + 1, c) ∈ ds ∧ i < ls.length ∧
        truncate_line (ls.getD i "") c = "")) := by
  induction ds generalizing ls dels with
  | nil => intro i; simp [mark_pass]
  | cons p rest ih =>
    obtain ⟨row, col⟩ := p
    intro i
    have hnd3 := hnd
    rw [List.map_cons] at hnd3
    have hpair := List.nodup_cons.mp hnd3
    have hlb2 : ∀ q ∈ rest, 1 ≤ q.1 := fun q hq => hlb q (by simp [hq])
    have hrow1 : 1 ≤ row := hlb (row, col) (by simp)
    have hre : row - 1 + 1 = row := by omega
    simp only [mark_pass]
    by_cases hb : row - 1 < ls.length
    · simp only [hb, if_true]
      by_cases he : truncate_line (ls.getD (row - 1) "") col = ""
      · simp only [he, if_true]
        rw [ih ls ((row - 1) :: dels) hpair.2 hlb2 i]
        constructor
        · rintro (hmem | ⟨c, hc, hlen, htr⟩)
          · rcases List.mem_cons.mp hmem with h1 | h1
            · subst h1
              right
              refine ⟨col, ?_, hb, he⟩
              rw [hre]
              exact List.mem_cons_self _ _
            · exact Or.inl h1
          · exact Or.inr ⟨c, List.mem_cons_of_mem _ hc, hlen, htr⟩
        · rintro (hmem | ⟨c, hc, hlen, htr⟩)
          · exact Or.inl (List.mem_cons_of_mem _ hmem)
          · rcases List.mem_cons.mp hc with h1 | h1
            · injection h1 with ha hbb
              left
              have : i = row - 1 := by omega
              rw [this]
              exact List.mem_cons_self _ _
            · exact Or.inr ⟨c, h1, hlen, htr⟩
      · simp only [he, if_false]
        rw [ih (ls.set (row - 1) (truncate_line (ls.getD (row - 1) "") col ++ "\n"))
          dels hpair.2 hlb2 i]
        have hshift : ∀ c : Nat, (i + 1, c) ∈ rest →
            (ls.set (row - 1) (truncate_line (ls.getD (row - 1) "") col ++ "\n")).getD i ""
              = ls.getD i "" := by
          intro c hc
          have hneq : i + 1 ≠ row := by
            intro hcc
            exact hpair.1 (List.mem_map.mpr ⟨(i + 1, c), hc, hcc⟩)
          have hine : row - 1 ≠ i := by omega
          by_cases hil : i < ls.length
          · rw [List.getD_eq_getElem _ _ (by simpa using hil),
              List.getD_eq_getElem _ _ hil]
            exact List.getElem_set_ne hine (by simpa using hil)
          · have h1 : ls.length ≤ i := by omega
            rw [List.getD_eq_default _ _ (by simpa using h1),
              List.getD_eq_default _ _ h1]
        constructor
        · rintro (hmem | ⟨c, hc, hlen, htr⟩)
          · exact Or.inl hmem
          · refine Or.inr ⟨c, List.mem_cons_of_mem _ hc, by simpa using hlen, ?_⟩
            rw [← hshift c hc]
            exact htr
        · rintro (hmem | ⟨c, hc, hlen, htr⟩)
          · exact Or.inl hmem
          · rcases List.mem_cons.mp hc with h1 | h1
            · injection h1 with ha hbb
              have hieq : i = row - 1 := by omega
              subst hbb
              rw [hieq] at htr
              exact absurd htr he
            · refine Or.inr ⟨c, h1, by simpa using hlen, ?_⟩
              rw [hshift c h1]
              exact htr
    · simp only [hb, if_false]
      rw [ih ls dels hpair.2 hlb2 i]
      constructor
      · rintro (hmem | ⟨c, hc, hlen, htr⟩)
        · exact Or.inl hmem
        · exact Or.inr ⟨c, List.mem_cons_of_mem _ hc, hlen, htr⟩
      · rintro (hmem | ⟨c, hc, hlen, htr⟩)
        · exact Or.inl hmem
        · rcases List.mem_cons.mp hc with h1 | h1
          · injection h1 with ha hbb
            have : row - 1 = i := by omega
            rw [this] at hb
            exact absurd hlen hb
          · exact Or.inr ⟨c, h1, hlen, htr⟩

/-- Indices below the offset never remove anything. -/
theorem removeIdxFrom_of_lt (S : List Nat) :
    ∀ (ls : List String) (n0 : Nat), (∀ j ∈ S, j < n0) → removeIdxFrom S n0 ls = ls := by
  intro ls
  induction ls with
  | nil => intro n0 h; rfl
  | cons l ls ih =>
    intro n0 h
    have hn : n0 ∉ S := fun hc => absurd (h n0 hc) (by omega)
    simp only [removeIdxFrom, hn, if_false]
    rw [ih (n0 + 1) (fun j hj => by have := h j hj; omega)]

/-- Erasing one index commutes with removing a set of strictly smaller indices. -/
theorem removeIdxFrom_eraseIdx (S : List Nat) :
    ∀ (ls : List String) (n0 i : Nat), i < ls.length → (∀ j ∈ S, j < n0 + i) →
    removeIdxFrom S n0 (ls.eraseIdx i) = removeIdxFrom ((n0 + i) :: S) n0 ls := by
  intro ls
  induction ls with
  | nil => intro n0 i hi; simp at hi
  | cons x xs ih =>
    intro n0 i hi hS
    cases i with
    | zero =>
      simp only [List.eraseIdx_cons_zero, Nat.add_zero]
      have hmem : n0 ∈ n0 :: S := List.mem_cons_self _ _
      simp only [removeIdxFrom, hmem, if_true]
      rw [removeIdxFrom_of_lt S xs n0 (fun j hj => by have := hS j hj; omega)]
      rw [removeIdxFrom_of_lt (n0 :: S) xs (n0 + 1) ?_]
      intro j hj
      rcases List.mem_cons.mp hj with h1 | h1
      · omega
      · have := hS j h1; omega
    | succ k =>
      simp only [List.eraseIdx_cons_succ]
      have hcond : (n0 ∈ (n0 + (k + 1)) :: S) ↔ (n0 ∈ S) := by
        constructor
        · intro h
          rcases List.mem_cons.mp h with h1 | h1
          · omega
          · exact h1
        · exact fun h => List.mem_cons_of_mem _ h
      have hk : k < xs.length := by simpa using hi
      have hS2 : ∀ j ∈ S, j < (n0 + 1) + k := fun j hj => by have := hS j hj; omega
      have harith : n0 + 1 + k = n0 + (k + 1) := by omega
      by_cases hn : n0 ∈ S
      · simp only [removeIdxFrom, hn, if_true, hcond.mpr hn]
        rw [ih (n0 + 1) k hk hS2, harith]
      · have hn2 : n0 ∉ (n0 + (k + 1)) :: S := fun hc => hn (hcond.mp hc)
        simp only [removeIdxFrom, hn, if_false, hn2]
        rw [ih (n0 + 1) k hk hS2, harith]

/-- Sequential `del` at strictly descending indices removes exactly that index set. -/
theorem foldl_eraseIdx_eq_removeIdxFrom :
    ∀ (ds : List Nat) (ls : List String),
    ds.Pairwise (fun a b => b < a) → (∀ i ∈ ds, i < ls.length) →
    ds.foldl (fun acc i => acc.eraseIdx i) ls = removeIdxFrom ds 0 ls
  | [], ls, _, _ => by
    simp only [List.foldl_nil]
    rw [removeIdxFrom_of_lt [] ls 0 (by simp)]
  | i :: ds, ls, hsort, hub => by
    have hhead : ∀ j ∈ ds, j < i := by
      have := List.pairwise_cons.mp hsort
      exact this.1
    have hi : i < ls.length := hub i (by simp)
    have hub2 : ∀ j ∈ ds, j < (ls.eraseIdx i).length := by
      intro j hj
      rw [List.length_eraseIdx]
      simp only [hi, if_true]
      have := hhead j hj
      omega
    simp only [List.foldl_cons]
    rw [foldl_eraseIdx_eq_removeIdxFrom ds (ls.eraseIdx i)
      ((List.pairwise_cons.mp hsort).2) hub2]
    have := removeIdxFrom_eraseIdx ds ls 0 i hi (fun j hj => by
      have := hhead j hj; omega)
    rw [this]
    have h0 : 0 + i = i := by omega
    rw [h0]

/-- The pointwise edit preserves the number of lines. -/
theorem edit_lines_length (rem : List (Nat × Nat)) :
    ∀ (ls : List String) (n0 : Nat), (edit_lines rem n0 ls).length = ls.length := by
  intro ls
  induction ls with
  | nil => intro n0; rfl
  | cons l ls ih => intro n0; simp only [edit_lines, List.length_cons, ih]

/-- The value of each pointwise-edited line. -/
theorem edit_lines_getD (rem : List (Nat × Nat)) :
    ∀ (ls : List String) (n0 i : Nat), i < ls.length →
    (edit_lines rem n0 ls).getD i "" =
      (match rem.lookup (n0 + i + 1) with
       | none => ls.getD i ""
       | some col =>
         if truncate_line (ls.getD i "") col = "" then ls.getD i ""
         else truncate_line (ls.getD i "") col ++ "\n") := by
  intro ls
  induction ls with
  | nil => intro n0 i hi; simp at hi
  | cons l ls ih =>
    intro n0 i hi
    cases i with
    | zero =>
      simp only [edit_lines, List.getD_cons_zero, Nat.add_zero]
    | succ k =>
      have hk : k < ls.length := by simpa using hi
      simp only [edit_lines, List.getD_cons_succ]
      rw [ih (n0 + 1) k hk]
      have : n0 + 1 + k = n0 + (k + 1) := by omega
      rw [this]

/-- Removing the empty-content indices from the edited lines yields the reference per-line transformation. -/
theorem removeIdxFrom_edit_eq_spec (rem : List (Nat × Nat)) (S : List Nat) :
    ∀ (ls : List String) (n0 : Nat),
    (∀ j : Nat, j < ls.length →
      ((n0 + j) ∈ S ↔ ∃ c, rem.lookup (n0 + j + 1) = some c ∧
        truncate_line (ls.getD j "") c = "")) →
    removeIdxFrom S n0 (edit_lines rem n0 ls) = strip_spec_go rem n0 ls := by
  intro ls
  induction ls with
  | nil => intro n0 _; rfl
  | cons l ls ih =>
    intro n0 HS
    have HS0 := HS 0 (by simp)
    simp only [Nat.add_zero, List.getD_cons_zero] at HS0
    have HStail : ∀ j : Nat, j < ls.length →
        (((n0 + 1) + j) ∈ S ↔ ∃ c, rem.lookup ((n0 + 1) + j + 1) = some c ∧
          truncate_line (ls.getD j "") c = "") := by
      intro j hj
      have := HS (j + 1) (by simpa using hj)
      have h1 : n0 + (j + 1) = n0 + 1 + j := by omega
      rw [h1] at this
      simpa using this
    cases hl : rem.lookup (n0 + 1) with
    | none =>
      have hn : n0 ∉ S := by
        intro hc
        rcases HS0.mp hc with ⟨c, hc1, _⟩
        rw [hl] at hc1
        exact absurd hc1 (by simp)
      simp only [edit_lines, hl, strip_spec_go, removeIdxFrom, hn, if_false]
      rw [ih (n0 + 1) HStail]
    | some col =>
      by_cases hbe : truncate_line l col = ""
      · have hn : n0 ∈ S := HS0.mpr ⟨col, hl, hbe⟩
        simp only [edit_lines, hl, hbe, if_true, strip_spec_go, removeIdxFrom, hn]
        rw [ih (n0 + 1) HStail]
      · have hn : n0 ∉ S := by
          intro hc
          rcases HS0.mp hc with ⟨c, hc1, hc2⟩
          rw [hl] at hc1
          injection hc1 with hc3
          rw [← hc3] at hc2
          exact absurd hc2 hbe
        simp only [edit_lines, hl, hbe, if_false, strip_spec_go, removeIdxFrom, hn]
        rw [ih (n0 + 1) HStail]

/-- Association lookup misses exactly the keys absent from the key list. -/
theorem natLookup_eq_none_iff (l : List (Nat × Nat)) (k : Nat) :
    l.lookup k = none ↔ k ∉ l.map Prod.fst := by
  induction l with
  | nil => simp
  | cons x xs ih =>
    obtain ⟨a, b⟩ := x
    by_cases hk : k = a
    · subst hk
      simp [List.lookup]
    · have hkb : (k == a) = false := beq_eq_false_iff_ne.mpr hk
      simp only [List.lookup, hkb, List.map_cons, List.mem_cons]
      rw [ih]
      constructor
      · intro h hc
        rcases hc with h1 | h1
        · exact hk h1
        · exact h h1
      · intro h hc
        exact h (Or.inr hc)

/-- With unique keys, association lookup finds exactly the stored pair. -/
theorem natLookup_some_iff_mem (l : List (Nat × Nat)) (k v : Nat)
    (hnd : (l.map Prod.fst).Nodup) : l.lookup k = some v ↔ (k, v) ∈ l := by
  induction l with
  | nil => simp
  | cons x xs ih =>
    obtain ⟨a, b⟩ := x
    have hnd3 := hnd
    rw [List.map_cons] at hnd3
    have hpair := List.nodup_cons.mp hnd3
    by_cases hk : k = a
    · subst hk
      simp only [List.lookup, beq_self_eq_true, List.mem_cons]
      constructor
      · intro h
        injection h with h2
        subst h2
        exact Or.inl rfl
      · intro h
        rcases h with h1 | h1
        · injection h1 with _ h2
          rw [h2]
        · exact absurd (List.mem_map.mpr ⟨(k, v), h1, rfl⟩) hpair.1
    · have hkb : (k == a) = false := beq_eq_false_iff_ne.mpr hk
      simp only [List.lookup, hkb, List.mem_cons]
      rw [ih hpair.2]
      constructor
      · exact fun h => Or.inr h
      · intro h
        rcases h with h1 | h1
        · injection h1 with h2 _
          exact absurd h2 hk
        · exact h1

/-- With nothing to remove, the reference transformation is the identity. -/
theorem strip_spec_go_nil : ∀ (ls : List String) (n0 : Nat),
    strip_spec_go [] n0 ls = ls := by
  intro ls
  induction ls with
  | nil => intro n0; rfl
  | cons l ls ih => intro n0; simp only [strip_spec_go, List.lookup, ih]

/-- Sorting and deduplicating the deletion set keeps its membership. -/
theorem sortDescDedup_mem (l : List Nat) (i : Nat) : i ∈ sortDescDedup l ↔ i ∈ l := by
  unfold sortDescDedup
  rw [List.mem_insertionSort]
  exact List.mem_dedup

/-- The deletion order is strictly descending. -/
theorem sortDescDedup_sorted (l : List Nat) :
    (sortDescDedup l).Pairwise (fun a b => b < a) := by
  haveI h1 : IsTotal Nat (fun a b : Nat => b ≤ a) := ⟨fun a b => le_total b a⟩
  haveI h2 : IsTrans Nat (fun a b : Nat => b ≤ a) := ⟨fun a b c hab hbc => le_trans hbc hab⟩
  have hsorted : (sortDescDedup l).Pairwise (fun a b : Nat => b ≤ a) :=
    List.sorted_insertionSort (fun a b : Nat => b ≤ a) l.dedup
  have hnodup : (sortDescDedup l).Nodup :=
    ((List.perm_insertionSort (fun a b : Nat => b ≤ a) l.dedup).nodup_iff).mpr l.nodup_dedup
  have := List.Pairwise.and hsorted hnodup
  exact this.imp (fun hab => lt_of_le_of_ne hab.1 (Ne.symm hab.2))

/-- The two imperative passes compute the reference per-line transformation, given the tokenizer facts (strictly increasing 1-based rows). -/
theorem strip_core_eq_spec (lines : List String) (rem : List (Nat × Nat))
    (hrows : (rem.map Prod.fst).Pairwise (fun a b => a < b))
    (hlb : ∀ p ∈ rem, 1 ≤ p.1) :
    delete_pass (mark_pass rem.reverse lines []).2 (mark_pass rem.reverse lines []).1 =
      strip_spec_go rem 0 lines := by
  have hndrows : (rem.map Prod.fst).Nodup := hrows.imp (fun h => Nat.ne_of_lt h)
  have hdsnd : ((rem.reverse).map Prod.fst).Nodup := by
    rw [List.map_reverse]
    exact List.nodup_reverse.mpr hndrows
  have hdslb : ∀ p ∈ rem.reverse, 1 ≤ p.1 := fun p hp => hlb p (List.mem_reverse.mp hp)
  have hlen : (mark_pass rem.reverse lines []).1.length = lines.length :=
    mark_pass_length rem.reverse lines []
  have hgetD : ∀ i, i < lines.length → (mark_pass rem.reverse lines []).1.getD i "" =
      (match rem.lookup (i + 1) with
       | none => lines.getD i ""
       | some col =>
         if truncate_line (lines.getD i "") col = "" then lines.getD i ""
         else truncate_line (lines.getD i "") col ++ "\n") := by
    intro i hi
    cases hl : rem.lookup (i + 1) with
    | none =>
      have hni : (i + 1) ∉ rem.map Prod.fst := (natLookup_eq_none_iff rem (i + 1)).mp hl
      have hni2 : (i + 1) ∉ (rem.reverse).map Prod.fst := by
        rw [List.map_reverse, List.mem_reverse]
        exact hni
      exact mark_pass_untouched rem.reverse lines [] hdslb i hi hni2
    | some col =>
      have hmem : (i + 1, col) ∈ rem :=
        (natLookup_some_iff_mem rem (i + 1) col hndrows).mp hl
      have hmem2 : (i + 1, col) ∈ rem.reverse := List.mem_reverse.mpr hmem
      have htar := mark_pass_target rem.reverse lines [] hdsnd hdslb (i + 1) col hmem2
        (by simpa using hi)
      simp only [Nat.add_sub_cancel] at htar
      by_cases hbe : truncate_line (lines.getD i "") col = ""
      · simp only [hbe, if_true]
        exact htar.2 hbe
      · simp only [hbe, if_false]
        exact htar.1 hbe
  have hM : (mark_pass rem.reverse lines []).1 = edit_lines rem 0 lines := by
    apply List.ext_getElem
    · rw [hlen, edit_lines_length]
    · intro i h1 h2
      have hi : i < lines.length := by rw [← hlen]; exact h1
      rw [← List.getD_eq_getElem _ "" h1, ← List.getD_eq_getElem _ "" h2]
      rw [hgetD i hi, edit_lines_getD rem lines 0 i hi]
      have h0 : 0 + i + 1 = i + 1 := by omega
      rw [h0]
  have hdels := mark_pass_dels rem.reverse lines [] hdsnd hdslb
  have hSmem : ∀ j : Nat, j ∈ (mark_pass rem.reverse lines []).2 ↔
      ∃ c, rem.lookup (j + 1) = some c ∧ j < lines.length ∧
        truncate_line (lines.getD j "") c = "" := by
    intro j
    rw [hdels j]
    constructor
    · rintro (h | ⟨c, hc, hjl, htr⟩)
      · simp at h
      · exact ⟨c, (natLookup_some_iff_mem rem (j + 1) c hndrows).mpr
          (List.mem_reverse.mp hc), hjl, htr⟩
    · rintro ⟨c, hc, hjl, htr⟩
      exact Or.inr ⟨c, List.mem_reverse.mpr
        ((natLookup_some_iff_mem rem (j + 1) c hndrows).mp hc), hjl, htr⟩
  have hbounds : ∀ i ∈ sortDescDedup (mark_pass rem.reverse lines []).2,
      i < (mark_pass rem.reverse lines []).1.length := by
    intro i hi
    rw [hlen]
    rcases (hSmem i).mp ((sortDescDedup_mem _ i).mp hi) with ⟨c, _, hjl, _⟩
    exact hjl
  have HS : ∀ j : Nat, j < lines.length →
      ((0 + j) ∈ sortDescDedup (mark_pass rem.reverse lines []).2 ↔
        ∃ c, rem.lookup (0 + j + 1) = some c ∧
          truncate_line (lines.getD j "") c = "") := by
    intro j hj
    have h0 : 0 + j = j := by omega
    rw [h0]
    rw [sortDescDedup_mem, hSmem j]
    constructor
    · rintro ⟨c, hc, _, htr⟩
      exact ⟨c, hc, htr⟩
    · rintro ⟨c, hc, htr⟩
      exact ⟨c, hc, hj, htr⟩
  unfold delete_pass
  rw [foldl_eraseIdx_eq_removeIdxFrom (sortDescDedup (mark_pass rem.reverse lines []).2)
    (mark_pass rem.reverse lines []).1 (sortDescDedup_sorted _) hbounds]
  rw [hM]
  exact removeIdxFrom_edit_eq_spec rem (sortDescDedup (mark_pass rem.reverse lines []).2)
    lines 0 HS

/-- C9: every comment matching a preserve pattern is kept (the pass leaves
the file untouched when all comments match), and the pass removes every
other comment by truncating its line to the content before the comment when
that content is non-empty, or deleting the line entirely otherwise — the
output lines are exactly the reference per-line transformation over the
non-preserved comment positions. -/
theorem C9_strip_python_comments (lines : List String) (toks : List CommentTok)
    (hrows : (toks.map CommentTok.row).Pairwise (fun a b => a < b))
    (hlb : ∀ t ∈ toks, 1 ≤ t.row) :
    ((∀ t ∈ toks, preserve_search t.text = true) →
      strip_python_comments lines toks = (lines, false)) ∧
    (strip_python_comments lines toks).1 =
      strip_spec_go (comments_to_remove toks) 0 lines := by
  have hremrows : ((comments_to_remove toks).map Prod.fst).Pairwise (fun a b => a < b) := by
    have hmm : (comments_to_remove toks).map Prod.fst =
        (toks.filter (fun t => !(preserve_search t.text))).map CommentTok.row := by
      simp [comments_to_remove, List.map_map]
    rw [hmm]
    have hsub : (toks.filter (fun t => !(preserve_search t.text))).map CommentTok.row
        |>.Sublist (toks.map CommentTok.row) :=
      List.Sublist.map CommentTok.row (List.filter_sublist toks)
    exact hrows.sublist hsub
  have hremlb : ∀ p ∈ comments_to_remove toks, 1 ≤ p.1 := by
    intro p hp
    rcases List.mem_map.mp hp with ⟨t, ht, hteq⟩
    rcases List.mem_filter.mp ht with ⟨ht2, _⟩
    rw [← hteq]
    exact hlb t ht2
  constructor
  · intro hpres
    have hfil : toks.filter (fun t => !(preserve_search t.text)) = [] := by
      rw [List.filter_eq_nil_iff]
      intro t ht
      simp [hpres t ht]
    have hremnil : comments_to_remove toks = [] := by
      simp [comments_to_remove, hfil]
    simp [strip_python_comments, hremnil]
  · by_cases hremnil : comments_to_remove toks = []
    · rw [hremnil, strip_spec_go_nil]
      simp [strip_python_comments, hremnil]
    · have hie : (comments_to_remove toks).isEmpty = false := by
        cases hx : comments_to_remove toks with
        | nil => exact absurd hx hremnil
        | cons p ps => rfl
      have hcore := strip_core_eq_spec lines (comments_to_remove toks) hremrows hremlb
      simp only [strip_python_comments, hie, Bool.false_eq_true, if_false]
      exact hcore

/-- C9 witness: the theorem applied to a concrete three-line file with a
truncated comment, a deleted comment-only line and a preserved `# noqa`. -/
theorem C9_strip_witness :
    ((∀ t ∈ [CommentTok.mk 1 7 "# remove", CommentTok.mk 2 4 "# gone",
        CommentTok.mk 3 7 "# noqa"], preserve_search t.text = true) →
      strip_python_comments ["x = 1  # remove\n", "    # gone\n", "y = 2  # noqa\n"]
        [CommentTok.mk 1 7 "# remove", CommentTok.mk 2 4 "# gone",
          CommentTok.mk 3 7 "# noqa"] =
        (["x = 1  # remove\n", "    # gone\n", "y = 2  # noqa\n"], false)) ∧
    (strip_python_comments ["x = 1  # remove\n", "    # gone\n", "y = 2  # noqa\n"]
        [CommentTok.mk 1 7 "# remove", CommentTok.mk 2 4 "# gone",
          CommentTok.mk 3 7 "# noqa"]).1 =
      strip_spec_go (comments_to_remove
        [CommentTok.mk 1 7 "# remove", CommentTok.mk 2 4 "# gone",
          CommentTok.mk 3 7 "# noqa"]) 0
        ["x = 1  # remove\n", "    # gone\n", "y = 2  # noqa\n"] :=
  C9_strip_python_comments
    ["x = 1  # remove\n", "    # gone\n", "y = 2  # noqa\n"]
    [CommentTok.mk 1 7 "# remove", CommentTok.mk 2 4 "# gone",
      CommentTok.mk 3 7 "# noqa"]
    (by decide) (by decide)

/-- C5: a checker returning status 2 with a non-empty reason makes the
file-checker entry point emit exactly the block decision carrying that
reason, and a file whose extension has no registered checker (such as
`.md`) produces no standard-output JSON at all. -/
theorem C5_file_checker_block_and_silent (reason : String)
    (run_checker : CheckerLang → Int × String)
    (hreason : reason ≠ "")
    (hpy : run_checker CheckerLang.python = (2, reason)) :
    file_checker_main ".py" run_checker = (0, some (HookOutput.blockDecision reason)) ∧
    render_decision (HookOutput.blockDecision reason) =
      "\x7b\"decision\": \"block\", \"reason\": \"" ++ reason ++ "\"\x7d" ∧
    file_checker_main ".md" run_checker = (0, none) := by
  refine ⟨?_, rfl, ?_⟩
  · have h : file_checker_main ".py" run_checker =
        (if (run_checker CheckerLang.python).1 = 2 ∧ (run_checker CheckerLang.python).2 ≠ ""
         then ((0 : Int), some (HookOutput.blockDecision (run_checker CheckerLang.python).2))
         else ((0 : Int), some HookOutput.emptyDecision)) := rfl
    rw [h, hpy]
    simp [hreason]
  · rfl

/-- C5 witness: the theorem applied at the spec's concrete scenario. -/
theorem C5_file_checker_witness :
    file_checker_main ".py"
        (fun _ => ((2 : Int), "Python: 3 ruff issues in app.py")) =
      (0, some (HookOutput.blockDecision "Python: 3 ruff issues in app.py")) ∧
    render_decision (HookOutput.blockDecision "Python: 3 ruff issues in app.py") =
      "\x7b\"decision\": \"block\", \"reason\": \"Python: 3 ruff issues in app.py\"\x7d" ∧
    file_checker_main ".md" (fun _ => ((2 : Int), "Python: 3 ruff issues in app.py")) =
      (0, none) :=
  C5_file_checker_block_and_silent "Python: 3 ruff issues in app.py"
    (fun _ => ((2 : Int), "Python: 3 ruff issues in app.py")) (by decide) rfl

/-- C6: the two stop-hook validators are total functions of their parsed
input and environment — on malformed standard-input JSON both return the
permissive exit code 0, and on every input the returned code is 0 or 2, so
no exception propagates out of `main`. -/
theorem C6_hooks_malformed_json_allows :
    (∀ env : PlanHookEnv, spec_plan_validator_main none env = 0) ∧
    (∀ env : VerifyHookEnv, spec_verify_validator_main none env = 0) ∧
    (∀ (p : Option StopHookInput) (env : PlanHookEnv),
      spec_plan_validator_main p env = 0 ∨ spec_plan_validator_main p env = 2) ∧
    (∀ (p : Option StopHookInput) (env : VerifyHookEnv),
      spec_verify_validator_main p env = 0 ∨ spec_verify_validator_main p env = 2) := by
  refine ⟨fun env => rfl, fun env => rfl, ?_, ?_⟩
  · intro p env
    cases p with
    | none => exact Or.inl rfl
    | some d =>
      simp only [spec_plan_validator_main]
      repeat' first
        | exact Or.inl rfl
        | exact Or.inr rfl
        | split
  · intro p env
    cases p with
    | none => exact Or.inl rfl
    | some d =>
      simp only [spec_verify_validator_main]
      repeat' first
        | exact Or.inl rfl
        | exact Or.inr rfl
        | split

/-- Nonempty left part makes a string append nonempty. -/
theorem str_append_ne_empty (a b : String) (h : a.data ≠ []) : (a ++ b) ≠ "" := by
  intro hc
  have hdata : (a ++ b).data = [] := by rw [hc]
  rw [String.data_append] at hdata
  exact h (List.append_eq_nil.mp hdata).1

/-- C10: for a Python file named without `test_` or `spec`, with at least
one lint tool installed, `check_python` returns status 2 even on a clean
pass, with an empty reason exactly when no issues were found; it returns
`(0, "")` only for test/spec-named files or when neither tool is
available — so the caller's block decision is carried by the reason's
non-emptiness, not by the status code. -/
theorem C10_check_python_status_reason (name : String) (env : PyCheckEnv)
    (h1 : strContainsSub name "test_" = false)
    (h2 : strContainsSub name "spec" = false)
    (htool : env.hasRuff = true ∨ env.hasBasedpyright = true) :
    (check_python name env).1 = 2 ∧
    ((check_python name env).2 = "" ↔ python_has_issues env = false) ∧
    ((strContainsSub name "test_" = true ∨ strContainsSub name "spec" = true) →
      check_python name env = (0, "")) ∧
    (∀ env2 : PyCheckEnv, env2.hasRuff = false → env2.hasBasedpyright = false →
      check_python name env2 = (0, "")) := by
  have htool2 : (env.hasRuff || env.hasBasedpyright) = true := by
    rcases htool with h | h <;> simp [h]
  refine ⟨?_, ?_, ?_, ?_⟩
  · by_cases hiss : python_has_issues env = true <;>
      simp [check_python, h1, h2, htool2, hiss]
  · by_cases hiss : python_has_issues env = true
    · simp only [check_python, h1, h2, Bool.or_self, Bool.false_eq_true, if_false,
        htool2, Bool.not_true, hiss, if_true]
      constructor
      · intro hx
        exact absurd hx (str_append_ne_empty "Python: " _ (by decide))
      · intro hx
        exact absurd hx (by decide)
    · have hiss2 : python_has_issues env = false := by simpa using hiss
      simp [check_python, h1, h2, htool2, hiss2]
  · intro hcase
    rcases hcase with h | h
    · rw [h] at h1; exact absurd h1 (by decide)
    · rw [h] at h2; exact absurd h2 (by decide)
  · intro env2 hr hb
    simp [check_python, h1, h2, hr, hb]

/-- C10 witness: the theorem applied at a clean pass with ruff installed. -/
theorem C10_check_python_witness :
    (check_python "app.py"
        { hasRuff := true, hasBasedpyright := false
          ruffErrorLines := [], bpErrorCount := 0 }).1 = 2 ∧
    ((check_python "app.py"
        { hasRuff := true, hasBasedpyright := false
          ruffErrorLines := [], bpErrorCount := 0 }).2 = "" ↔
      python_has_issues
        { hasRuff := true, hasBasedpyright := false
          ruffErrorLines := [], bpErrorCount := 0 } = false) ∧
    ((strContainsSub "app.py" "test_" = true ∨ strContainsSub "app.py" "spec" = true) →
      check_python "app.py"
        { hasRuff := true, hasBasedpyright := false
          ruffErrorLines := [], bpErrorCount := 0 } = (0, "")) ∧
    (∀ env2 : PyCheckEnv, env2.hasRuff = false → env2.hasBasedpyright = false →
      check_python "app.py" env2 = (0, "")) :=
  C10_check_python_status_reason "app.py"
    { hasRuff := true, hasBasedpyright := false, ruffErrorLines := [], bpErrorCount := 0 }
    (by decide) (by decide) (Or.inl rfl)

/-- C2: for every allow-list and every input mapping, saving and then loading
yields a mapping whose key set is exactly the allow-list intersected with the
input's key set; a key outside the allow-list is absent from the result
whether it entered on the save path (present in the mapping passed to
`save_config`) or on the load path (present in the on-disk mapping). -/
theorem C2_config_roundtrip_filters_keys {α : Type} (valid : List String)
    (input disk : ConfigMap α) :
    (∀ k : String,
      k ∈ (load_config valid (save_config valid input)).map Prod.fst ↔
        (k ∈ valid ∧ k ∈ input.map Prod.fst)) ∧
    (∀ k : String, k ∉ valid → k ∉ (save_config valid input).map Prod.fst) ∧
    (∀ k : String, k ∉ valid → k ∉ (load_config valid disk).map Prod.fst) := by
  refine ⟨fun k => ?_, fun k hk => ?_, fun k hk => ?_⟩
  · constructor
    · intro h
      rcases List.mem_map.mp h with ⟨kv, hmem, hfst⟩
      rcases List.mem_filter.mp hmem with ⟨hmem2, hp⟩
      rcases List.mem_filter.mp hmem2 with ⟨hmem3, _⟩
      subst hfst
      refine ⟨by simpa using hp, List.mem_map.mpr ⟨kv, hmem3, rfl⟩⟩
    · rintro ⟨hv, hin⟩
      rcases List.mem_map.mp hin with ⟨kv, hmem, hfst⟩
      subst hfst
      refine List.mem_map.mpr ⟨kv, ?_, rfl⟩
      have hp : valid.contains kv.1 = true := by simpa using hv
      exact List.mem_filter.mpr ⟨List.mem_filter.mpr ⟨hmem, hp⟩, hp⟩
  · intro h
    rcases List.mem_map.mp h with ⟨kv, hmem, hfst⟩
    rcases List.mem_filter.mp hmem with ⟨_, hp⟩
    subst hfst
    exact hk (by simpa using hp)
  · intro h
    rcases List.mem_map.mp h with ⟨kv, hmem, hfst⟩
    rcases List.mem_filter.mp hmem with ⟨_, hp⟩
    subst hfst
    exact hk (by simpa using hp)

/-- C2 witness: the theorem applied at the tests' concrete allow-list
fragment and inputs. -/
theorem C2_config_roundtrip_witness :
    "enable_python" ∈ (load_config ["enable_python"]
      (save_config ["enable_python"]
        [("enable_python", true), ("unknown_key", false)])).map Prod.fst ∧
    "unknown_key" ∉ (save_config ["enable_python"]
      [("enable_python", true), ("unknown_key", false)]).map Prod.fst ∧
    "old_deprecated_key" ∉ (load_config ["enable_python"]
      [("old_deprecated_key", true)]).map Prod.fst := by
  have h := C2_config_roundtrip_filters_keys ["enable_python"]
    [("enable_python", true), ("unknown_key", false)] [("old_deprecated_key", true)]
  exact ⟨(h.1 "enable_python").mpr ⟨by decide, by decide⟩,
    h.2.1 "unknown_key" (by decide), h.2.2 "old_deprecated_key" (by decide)⟩

/-- C7: when both configs carry their server entries under the selected
server key, every server entry of the existing config keeps its existing
value in the merged config, and every server key present only in the new
config is added with the new config's value. -/
theorem C7_merge_preserves_existing_adds_new {α : Type}
    (existing newCfg : McpConfig α) (es ns : List (String × α))
    (hE : existing.mcpServers = some es) (hN : newCfg.mcpServers = some ns) :
    ∃ ms : List (String × α), (merge_mcp_config existing newCfg).mcpServers = some ms ∧
      (∀ (k : String) (v : α), es.lookup k = some v → ms.lookup k = some v) ∧
      (∀ (k : String) (v : α), es.lookup k = none → ns.lookup k = some v →
        ms.lookup k = some v) := by
  have hkey : pick_server_key existing newCfg = some "mcpServers" := by
    simp [pick_server_key, hE]
  refine ⟨pyDictMerge ns es, ?_, ?_, ?_⟩
  · simp [merge_mcp_config, hkey, setServers, getServers, hE, hN]
  · intro k v hv
    rw [lookup_pyDictMerge, hv]
    simp
  · intro k v hnone hv
    rw [lookup_pyDictMerge, hnone, hv]
    simp

/-- C7 witness: the theorem applied at a concrete pair of configs. -/
theorem C7_merge_witness :
    ∃ ms : List (String × Nat),
      (merge_mcp_config
        { mcpServers := some [("keep", 1)], servers := none }
        { mcpServers := some [("keep", 9), ("fresh", 7)], servers := none }).mcpServers
        = some ms ∧
      (∀ (k : String) (v : Nat), ([("keep", 1)] : List (String × Nat)).lookup k = some v →
        ms.lookup k = some v) ∧
      (∀ (k : String) (v : Nat), ([("keep", 1)] : List (String × Nat)).lookup k = none →
        ([("keep", 9), ("fresh", 7)] : List (String × Nat)).lookup k = some v →
        ms.lookup k = some v) :=
  C7_merge_preserves_existing_adds_new
    { mcpServers := some [("keep", 1)], servers := none }
    { mcpServers := some [("keep", 9), ("fresh", 7)], servers := none }
    [("keep", 1)] [("keep", 9), ("fresh", 7)] rfl rfl
